import Mathlib

/-!
Verification of the openEO JS utility module (`src/utils.js`, canonical variant).

JSON-compatible JavaScript values are modelled by the inductive type `JSVal`.
Arrays and objects carry a `Nat` reference id so that reference identity
(JS `===` on objects, `Set` membership, storage sharing after `deepClone`)
is expressible; all other behaviour ignores the id.  Machine floats never
matter for the verified claims, so JS numbers are carried as `Int`.
Fallible operations (JS `TypeError`) return `Except JSErr`.
-/

set_option maxRecDepth 4096

namespace OpenEOUtils

/-- A JavaScript runtime failure (the only kind the modelled code can raise). -/
inductive JSErr where
  | typeError : JSErr
deriving DecidableEq

/-- JSON-compatible JS value.  `arr`/`obj` carry a reference id modelling
object identity; `obj` fields are kept in insertion order as in JS. -/
inductive JSVal where
  | null : JSVal
  | bool : Bool → JSVal
  | num : Int → JSVal
  | str : String → JSVal
  | arr : Nat → List JSVal → JSVal
  | obj : Nat → List (String × JSVal) → JSVal

mutual

/-- Structural equality of modelled values, reference ids included (used
only to decide equality of concrete values in theorem statements). -/
def JSVal.beq : JSVal → JSVal → Bool
  | .null, .null => true
  | .bool a, .bool b => a == b
  | .num a, .num b => a == b
  | .str a, .str b => a == b
  | .arr r a, .arr r' b => r == r' && JSVal.beqList a b
  | .obj r a, .obj r' b => r == r' && JSVal.beqFields a b
  | _, _ => false

def JSVal.beqList : List JSVal → List JSVal → Bool
  | [], [] => true
  | a :: as, b :: bs => JSVal.beq a b && JSVal.beqList as bs
  | _, _ => false

def JSVal.beqFields : List (String × JSVal) → List (String × JSVal) → Bool
  | [], [] => true
  | (k, v) :: as, (k', v') :: bs => k == k' && JSVal.beq v v' && JSVal.beqFields as bs
  | _, _ => false

end

mutual

def JSVal.eq_of_beq : ∀ {a b : JSVal}, JSVal.beq a b = true → a = b
  | .null, .null, _ => rfl
  | .bool a, .bool b, h => by
    have : a = b := by simpa [JSVal.beq] using h
    rw [this]
  | .num a, .num b, h => by
    have : a = b := by simpa [JSVal.beq] using h
    rw [this]
  | .str a, .str b, h => by
    have : a = b := by simpa [JSVal.beq] using h
    rw [this]
  | .arr r a, .arr r' b, h => by
    have h2 : (r == r') = true ∧ JSVal.beqList a b = true := by
      simpa [JSVal.beq] using h
    have hr : r = r' := by simpa using h2.1
    have hl : a = b := JSVal.eqList_of_beqList h2.2
    rw [hr, hl]
  | .obj r a, .obj r' b, h => by
    have h2 : (r == r') = true ∧ JSVal.beqFields a b = true := by
      simpa [JSVal.beq] using h
    have hr : r = r' := by simpa using h2.1
    have hl : a = b := JSVal.eqFields_of_beqFields h2.2
    rw [hr, hl]

def JSVal.eqList_of_beqList : ∀ {a b : List JSVal}, JSVal.beqList a b = true → a = b
  | [], [], _ => rfl
  | x :: xs, y :: ys, h => by
    have h2 : JSVal.beq x y = true ∧ JSVal.beqList xs ys = true := by
      simpa [JSVal.beqList] using h
    rw [JSVal.eq_of_beq h2.1, JSVal.eqList_of_beqList h2.2]

def JSVal.eqFields_of_beqFields :
    ∀ {a b : List (String × JSVal)}, JSVal.beqFields a b = true → a = b
  | [], [], _ => rfl
  | (k, v) :: xs, (k', v') :: ys, h => by
    have h2 : ((k == k') = true ∧ JSVal.beq v v' = true) ∧ JSVal.beqFields xs ys = true := by
      simpa [JSVal.beqFields, and_assoc] using h
    have hk : k = k' := by simpa using h2.1.1
    rw [hk, JSVal.eq_of_beq h2.1.2, JSVal.eqFields_of_beqFields h2.2]

end

mutual

def JSVal.beq_refl : ∀ (a : JSVal), JSVal.beq a a = true
  | .null => rfl
  | .bool a => by simp [JSVal.beq]
  | .num a => by simp [JSVal.beq]
  | .str a => by simp [JSVal.beq]
  | .arr r a => by simp [JSVal.beq, JSVal.beqList_refl a]
  | .obj r a => by simp [JSVal.beq, JSVal.beqFields_refl a]

def JSVal.beqList_refl : ∀ (a : List JSVal), JSVal.beqList a a = true
  | [] => rfl
  | x :: xs => by simp [JSVal.beqList, JSVal.beq_refl x, JSVal.beqList_refl xs]

def JSVal.beqFields_refl : ∀ (a : List (String × JSVal)), JSVal.beqFields a a = true
  | [] => rfl
  | (k, v) :: xs => by simp [JSVal.beqFields, JSVal.beq_refl v, JSVal.beqFields_refl xs]

end

instance : DecidableEq JSVal := fun a b =>
  decidable_of_iff (JSVal.beq a b = true) ⟨JSVal.eq_of_beq, fun h => h ▸ JSVal.beq_refl a⟩

deriving instance DecidableEq for Except

/-- `typeof v === 'string'`. -/
def isStr : JSVal → Bool
  | .str _ => true
  | _ => false

/-- `Array.isArray(v)`. -/
def isArr : JSVal → Bool
  | .arr _ _ => true
  | _ => false

/-- `Utils.isObject`: `typeof obj === 'object' && obj === Object(obj) && !Array.isArray(obj)`,
true exactly for real (non-null, non-array) objects. -/
def isObject : JSVal → Bool
  | .obj _ _ => true
  | _ => false

mutual

/-- JS `String(x)` coercion for JSON-compatible values.
Arrays stringify via `join(",")`, objects give `"[object Object]"`. -/
def jsToString (v : JSVal) : String :=
  match v with
  | .null => "null"
  | .bool true => "true"
  | .bool false => "false"
  | .num n => toString n
  | .str s => s
  | .arr _ l => jsJoinList l ","
  | .obj _ _ => "[object Object]"
termination_by structural v

/-- JS `Array.prototype.join(sep)`: elements are coerced by `String()`,
except `null`/`undefined`, which become the empty string. -/
def jsJoinList (l : List JSVal) (sep : String) : String :=
  match l with
  | [] => ""
  | [.null] => ""
  | [x] => jsToString x
  | .null :: y :: rest => "" ++ sep ++ jsJoinList (y :: rest) sep
  | x :: y :: rest => jsToString x ++ sep ++ jsJoinList (y :: rest) sep
termination_by structural l

end

/-! ## normalizeUrl -/

/-- `s.replace(/\/$/, "")` seen from the reversed character list:
drop one leading `'/'` of the reversed string, if present. -/
def dropSlashRev : List Char → List Char
  | [] => []
  | c :: rest => if c = '/' then rest else c :: rest

/-- `s.replace(/\/$/, "")`: remove at most one trailing slash. -/
def stripTrailingSlash (s : String) : String :=
  String.mk (dropSlashRev s.data.reverse).reverse

/-- `Utils.normalizeUrl(baseUrl, path)`.  `baseUrl.replace` raises a
`TypeError` when `baseUrl` is not a string (no coercion happens in the
source); a non-string `path` fails the `typeof path === 'string'` guard
and is ignored. -/
def normalizeUrlJS (baseUrl : JSVal) (path : JSVal) : Except JSErr String :=
  match baseUrl with
  | .str s =>
    let url := stripTrailingSlash s
    match path with
    | .str p =>
      let p2 := if p.take 1 = "/" then p else "/" ++ p
      .ok (url ++ stripTrailingSlash p2)
    | _ => .ok url
  | _ => .error .typeError

/-- Decides whether a string ends with two slashes (the inputs on which
one-slash stripping is not idempotent). -/
def endsTwoSlashes (s : String) : Bool :=
  match s.data.reverse with
  | [] => false
  | [_] => false
  | c :: d :: _ => c = '/' && d = '/'

/-! ## replacePlaceholders -/

/-- `GetSubstitution` for a string pattern without capture groups: in the
replacement template, `$$` yields `$`, `$&` the matched text, a dollar
followed by the backtick character (`Char.ofNat 96`) the text before the
match, `$'` (`Char.ofNat 39`) the text after the match; any other `$` is
literal (`$1`…`$9` stay literal, there being no captures). -/
def expandRep (matched before after : List Char) : List Char → List Char
  | [] => []
  | c :: rest =>
    if c = '$' then
      match rest with
      | [] => ['$']
      | d :: rest2 =>
        if d = '$' then '$' :: expandRep matched before after rest2
        else if d = '&' then matched ++ expandRep matched before after rest2
        else if d = Char.ofNat 96 then before ++ expandRep matched before after rest2
        else if d = Char.ofNat 39 then after ++ expandRep matched before after rest2
        else '$' :: expandRep matched before after (d :: rest2)
    else c :: expandRep matched before after rest

/-- JS `String.prototype.replace` with a *string* pattern replaces only the
first occurrence of `pat`, inserting the replacement after
`GetSubstitution`; `acc` holds the consumed prefix in reverse (the text
before the match). -/
def replaceFirstAux (pat rep : List Char) (acc : List Char) : List Char → List Char
  | [] =>
    if pat.isPrefixOf [] then expandRep pat acc.reverse [] rep else []
  | c :: rest =>
    if pat.isPrefixOf (c :: rest) then
      expandRep pat acc.reverse ((c :: rest).drop pat.length) rep
        ++ (c :: rest).drop pat.length
    else c :: replaceFirstAux pat rep (c :: acc) rest

def replaceFirstL (pat rep : List Char) (l : List Char) : List Char :=
  replaceFirstAux pat rep [] l

/-- `message.replace(pat, rep)` for a string pattern. -/
def replaceFirst (s pat rep : String) : String :=
  String.mk (replaceFirstL pat.data rep.data s.data)

/-- The literal placeholder `'{' + name + '}'`. -/
def placeholderOf (name : String) : String := "\x7b" ++ name ++ "\x7d"

/-- The replacement text: `Array.isArray(vars) ? vars.join("; ") : vars`,
with the non-array value coerced to a string by `replace`. -/
def replacementText (v : JSVal) : String :=
  match v with
  | .arr _ l => jsJoinList l "; "
  | v => jsToString v

/-- `Utils.replacePlaceholders(message, variables)`: when `message` is a
string and `variables` a real object, substitute each field in turn into the
already-substituted message; otherwise return `message` unchanged.
`for..in` iterates fields in insertion order (the modelled objects carry no
integer-like keys, whose JS iteration order would differ). -/
def replacePlaceholders (message : JSVal) (vars : JSVal) : JSVal :=
  match message, vars with
  | .str m, .obj _ fields =>
    .str (fields.foldl
      (fun msg kv => replaceFirst msg (placeholderOf kv.1) (replacementText kv.2)) m)
  | m, _ => m

/-- Whether `pat` occurs as a contiguous substring of `l`. -/
def containsSub (pat : List Char) : List Char → Bool
  | [] => pat.isPrefixOf []
  | c :: rest => pat.isPrefixOf (c :: rest) || containsSub pat rest

/-! ## prettifyString (canonical array-accepting variant) and isNumeric -/

/-- `[a-z]` of the source regexes (ASCII as in JS patterns without `u`). -/
def isAsciiLower (c : Char) : Bool := 97 ≤ c.toNat && c.toNat ≤ 122

/-- `[A-Z]`. -/
def isAsciiUpper (c : Char) : Bool := 65 ≤ c.toNat && c.toNat ≤ 90

/-- `\d` = `[0-9]`. -/
def isDigitChar (c : Char) : Bool := 48 ≤ c.toNat && c.toNat ≤ 57

/-- `[a-zA-Z\d]`. -/
def isAsciiAlnum (c : Char) : Bool := isAsciiLower c || isAsciiUpper c || isDigitChar c

/-- Global replace of `/([a-zA-Z\d])sep([a-zA-Z\d])/g` by the replacer
`(_,a,b) => a + ' ' + b.toUpperCase()`; the scan resumes after each
consumed match, exactly as the JS regex engine does. -/
def replaceSep (sep : Char) : List Char → List Char
  | a :: b :: c :: rest =>
    if isAsciiAlnum a && b == sep && isAsciiAlnum c then
      a :: ' ' :: c.toUpper :: replaceSep sep rest
    else
      a :: replaceSep sep (b :: c :: rest)
  | l => l

/-- Global replace of `/([a-z])([A-Z])/g` by the same replacer
(`b.toUpperCase()` is the identity there, `b` being upper case already). -/
def camelReplace : List Char → List Char
  | a :: b :: rest =>
    if isAsciiLower a && isAsciiUpper b then
      a :: ' ' :: b.toUpper :: camelReplace rest
    else
      a :: camelReplace (b :: rest)
  | l => l

/-- `str.charAt(0).toUpperCase() + str.substr(1)` (ASCII upper-casing). -/
def capitalizeFirst : List Char → List Char
  | [] => []
  | c :: rest => c.toUpper :: rest

/-- The body of the `strings.map` callback of the canonical
`Utils.prettifyString`, for a string element. -/
def prettifyOne (str : String) : String :=
  if 3 ≤ str.length then
    let s := str.data
    let s2 := if s.contains '_' then replaceSep '_' s
              else if s.contains '-' then replaceSep '-' s
              else camelReplace s
    String.mk (capitalizeFirst s2)
  else str

/-- First field value for a key (`obj[k]`); JS objects have unique keys, the
lookup takes the first match. -/
def lookupField (k : String) : List (String × JSVal) → Option JSVal
  | [] => none
  | (k', v) :: rest => if k' = k then some v else lookupField k rest

/-- The `strings.map` callback on an arbitrary array element.  Non-string
elements mostly fail the `str.length >= 3` test and fall through unchanged
(numbers and booleans have no `length`), but `null.length` raises a
`TypeError`, and an array of length `>= 3` reaches `str.replace`, which
arrays do not have.  An object only has a `length` when it carries such a
field; a number-valued one is compared by `>=` (other value types for a
`length` field do not arise in any claim and are treated as failing the
test). -/
def prettifyElem : JSVal → Except JSErr JSVal
  | .str s => .ok (.str (prettifyOne s))
  | .null => .error .typeError
  | .arr r l => if 3 ≤ l.length then .error .typeError else .ok (.arr r l)
  | .obj r f =>
    match lookupField "length" f with
    | some (.num n) => if 3 ≤ n then .error .typeError else .ok (.obj r f)
    | _ => .ok (.obj r f)
  | v => .ok v

/-- `Array.prototype.map` with a callback that can raise. -/
def mapExcept (f : JSVal → Except JSErr JSVal) : List JSVal → Except JSErr (List JSVal)
  | [] => .ok []
  | x :: xs =>
    match f x, mapExcept f xs with
    | .error e, _ => .error e
    | .ok _, .error e => .error e
    | .ok y, .ok ys => .ok (y :: ys)

/-- Canonical `Utils.prettifyString(strings, arraySep)`: a non-array
argument is coerced by `String()` and wrapped in a singleton array; the
mapped results are joined with `arraySep` (coerced by `join`). -/
def prettifyStringJS (strings : JSVal) (arraySep : JSVal) : Except JSErr String :=
  let elems := match strings with
    | .arr _ l => l
    | v => [.str (jsToString v)]
  match mapExcept prettifyElem elems with
  | .error e => .error e
  | .ok l => .ok (jsJoinList l (jsToString arraySep))

/-- Optional leading `+` or `-` of a JS numeric literal. -/
def dropSign : List Char → List Char
  | [] => []
  | c :: rest => if c = '+' || c = '-' then rest else c :: rest

/-- Nonempty run of ASCII digits. -/
def digits1 (l : List Char) : Bool := !l.isEmpty && l.all isDigitChar

/-- Exponent part of a decimal literal: empty, or `e`/`E` followed by an
optionally signed nonempty digit run. -/
def expOk : List Char → Bool
  | [] => true
  | c :: rest => (c = 'e' || c = 'E') && digits1 (dropSign rest)

/-- Mantissa (digits, optional fraction) and exponent of a decimal literal,
sign already removed: `digits ['.' digits*] exp?` or `'.' digits+ exp?`. -/
def mantRest (l : List Char) : Bool :=
  let ip := l.takeWhile isDigitChar
  let r := l.dropWhile isDigitChar
  match r with
  | [] => !ip.isEmpty
  | c :: r2 =>
    if c = '.' then
      let fp := r2.takeWhile isDigitChar
      let r3 := r2.dropWhile isDigitChar
      (!ip.isEmpty || !fp.isEmpty) && expOk r3
    else !ip.isEmpty && expOk r

/-- Decimal literal, as accepted by both `parseFloat` (a numeric prefix
exists) and `Number` (the whole string is a numeral). -/
def decLit (l : List Char) : Bool := mantRest (dropSign l)

/-- ASCII string whitespace (`StrWhiteSpace`): space, tab, and the line
and page control characters.  (Unicode space characters are omitted; they
are neither letters nor `-`/`_`, so they never enable a `prettifyString`
rewrite.) -/
def isWS (c : Char) : Bool :=
  c = ' ' || c = '\t' || c = '\n' || c = '\r' || c = '\x0b' || c = '\x0c'

/-- `[0-9a-fA-F]`. -/
def isHexDigit (c : Char) : Bool :=
  isDigitChar c || (97 ≤ c.toNat && c.toNat ≤ 102) || (65 ≤ c.toNat && c.toNat ≤ 70)

/-- `[0-7]`. -/
def isOctDigit (c : Char) : Bool := 48 ≤ c.toNat && c.toNat ≤ 55

/-- `[01]`. -/
def isBinDigit (c : Char) : Bool := 48 ≤ c.toNat && c.toNat ≤ 49

/-- Non-decimal `Number` literal: `0x`/`0X`, `0o`/`0O` or `0b`/`0B`
followed by a nonempty digit run of the matching base (no sign allowed). -/
def nonDecLit (l : List Char) : Bool :=
  match l with
  | z :: c :: rest =>
    z = '0' &&
      ((c = 'x' || c = 'X') && (!rest.isEmpty && rest.all isHexDigit)
        || (c = 'o' || c = 'O') && (!rest.isEmpty && rest.all isOctDigit)
        || (c = 'b' || c = 'B') && (!rest.isEmpty && rest.all isBinDigit))
  | _ => false

/-- A `StrNumericLiteral` with a finite value: decimal, or a non-decimal
integer literal (the `Infinity` forms are rejected by `isFinite`). -/
def numLit (l : List Char) : Bool := decLit l || nonDecLit l

/-- Strip leading and trailing string whitespace, as `ToNumber` does. -/
def trimWS (l : List Char) : List Char :=
  (((l.dropWhile isWS).reverse.dropWhile isWS)).reverse

/-- `Utils.isNumeric` on a string: `!isNaN(parseFloat(n)) && isFinite(n)`.
Both conjuncts hold exactly when the whitespace-trimmed string is a
nonempty finite `Number` literal — a signed decimal numeral or a
`0x`/`0o`/`0b` literal (`parseFloat` finds the prefix `0` of the latter).
Decimal numerals whose value overflows to infinity (such as `1e999`,
rejected by the host's `isFinite`) are accepted by this model; the model
is therefore an over-approximation on them, and the proved universal
statements cover those extra strings as well. -/
def isNumeric (s : String) : Bool := numLit (trimWS s.data)

/-- A match site of `/([a-zA-Z\d])sep([a-zA-Z\d])/` somewhere in `l`. -/
def hasTriple (sep : Char) : List Char → Bool
  | a :: b :: c :: rest =>
    (isAsciiAlnum a && b == sep && isAsciiAlnum c) || hasTriple sep (b :: c :: rest)
  | _ => false

/-- A match site of `/([a-z])([A-Z])/` somewhere in `l`. -/
def hasCamelPair : List Char → Bool
  | a :: b :: rest => (isAsciiLower a && isAsciiUpper b) || hasCamelPair (b :: rest)
  | _ => false

/-- The characters a decimal literal can be made of. -/
def isAllowedNum (c : Char) : Bool :=
  isDigitChar c || c = '+' || c = '-' || c = '.' || c = 'e' || c = 'E'

/-- The characters any finite `Number` literal can be made of. -/
def isAllowedNumChar (c : Char) : Bool :=
  isAllowedNum c || isHexDigit c
    || c = 'x' || c = 'X' || c = 'o' || c = 'O' || c = 'b' || c = 'B'

/-! ## equals (fast-deep-equal), size, unique, deepClone -/

mutual

/-- `fast-deep-equal` (es6 build) restricted to JSON values: arrays by
length and pairwise equality, objects by key count and per-key lookup of
the first object's keys in the second.  The leading `a === b` fast path is
subsumed: two references to one object always hold equal values.
Reference ids are ignored. -/
def jsEquals (a b : JSVal) : Bool :=
  match a, b with
  | .null, .null => true
  | .bool x, .bool y => x == y
  | .num x, .num y => x == y
  | .str x, .str y => x == y
  | .arr _ xs, .arr _ ys => xs.length == ys.length && jsEqualsList xs ys
  | .obj _ xf, .obj _ yf => xf.length == yf.length && jsEqualsFields yf xf
  | _, _ => false
termination_by structural a

/-- Pairwise array comparison (only reached on equal lengths). -/
def jsEqualsList (xs ys : List JSVal) : Bool :=
  match xs, ys with
  | [], _ => true
  | _ :: _, [] => false
  | x :: xs', y :: ys' => jsEquals x y && jsEqualsList xs' ys'
termination_by structural xs

/-- For each key of `af`: `bf` has the key (`hasOwnProperty`) with an equal
value.  (`Object.keys` of a realizable JS object lists each key once.) -/
def jsEqualsFields (bf af : List (String × JSVal)) : Bool :=
  match af with
  | [] => true
  | (k, v) :: af' =>
    (match lookupField k bf with
     | some w => jsEquals v w
     | none => false) && jsEqualsFields bf af'
termination_by structural af

end

/-- `Object.keys`: each key once, first-occurrence order. -/
def jsKeys (f : List (String × JSVal)) : List String :=
  (f.map Prod.fst).eraseDups

/-- `Utils.size`: array length, object key count, `0` for every other
type (including `null`). -/
def size : JSVal → Nat
  | .arr _ l => l.length
  | .obj _ f => (jsKeys f).length
  | _ => 0

/-- JS `SameValueZero` (the equality used by `Set`): primitives by value,
arrays/objects by reference identity. -/
def sameValueZero : JSVal → JSVal → Bool
  | .null, .null => true
  | .bool a, .bool b => a == b
  | .num a, .num b => a == b
  | .str a, .str b => a == b
  | .arr r _, .arr r' _ => r == r'
  | .obj r _, .obj r' _ => r == r'
  | _, _ => false

/-- `[...new Set(array)]`: insertion order, keeping the first occurrence
of each `SameValueZero` class; `seen` holds the members already added. -/
def uniqueSetAux (seen : List JSVal) : List JSVal → List JSVal
  | [] => []
  | x :: xs =>
    if seen.any (fun y => sameValueZero y x) then uniqueSetAux seen xs
    else x :: uniqueSetAux (x :: seen) xs

/-- `array.filter(cb)` where the callback also receives the element
index, starting at `i`. -/
def filterIdxFrom (p : JSVal → Nat → Bool) : Nat → List JSVal → List JSVal
  | _, [] => []
  | i, x :: xs =>
    if p x i then x :: filterIdxFrom p (i + 1) xs else filterIdxFrom p (i + 1) xs

/-- `array.filter((s1, pos, arr) => arr.findIndex(s2 => Utils.equals(s1, s2)) === pos)`
(`findIndex` returns `-1`, never a position, when nothing matches; as an
`Option` that is `none`). -/
def uniqueEquals (l : List JSVal) : List JSVal :=
  filterIdxFrom (fun s1 pos => List.findIdx? (fun s2 => jsEquals s1 s2) l == some pos) 0 l

/-- `Utils.unique(array, useEquals)` on an actual array. -/
def uniqueArr (l : List JSVal) (useEquals : Bool) : List JSVal :=
  if useEquals then uniqueEquals l else uniqueSetAux [] l

/-- `Utils.unique` on an arbitrary value.  With `useEquals` the code calls
`array.filter`, a `TypeError` on anything that is not an array; without it
`[...new Set(array)]` accepts `null` (empty set) and strings (their
characters) but raises on non-iterables (numbers, booleans, objects). -/
def uniqueJS (array : JSVal) (useEquals : Bool) : Except JSErr (List JSVal) :=
  if useEquals then
    match array with
    | .arr _ l => .ok (uniqueEquals l)
    | _ => .error .typeError
  else
    match array with
    | .arr _ l => .ok (uniqueSetAux [] l)
    | .null => .ok []
    | .str s => .ok (uniqueSetAux [] (s.data.map (fun c => .str (String.mk [c]))))
    | _ => .error .typeError

/-- Modelled from the spec: `unique` "returns a new ordered sequence with
duplicates removed, preserving first-occurrence order" — an element is
kept exactly when no *earlier* input element (`prev`, in input order) is a
duplicate of it under the mode's equality. -/
def specKeepFirstAux (eq : JSVal → JSVal → Bool) (prev : List JSVal) :
    List JSVal → List JSVal
  | [] => []
  | x :: xs =>
    if prev.any (fun y => eq y x) then specKeepFirstAux eq (prev ++ [x]) xs
    else x :: specKeepFirstAux eq (prev ++ [x]) xs

mutual

/-- `Utils.deepClone`: `JSON.parse(JSON.stringify(x))`.  On the modelled
(acyclic, JSON-only) values the round trip rebuilds the same structure out
of freshly allocated objects; freshness is modelled by drawing new
reference ids from a counter `n` that the caller chooses above every id of
the input. -/
def deepCloneN (v : JSVal) (n : Nat) : JSVal × Nat :=
  match v with
  | .arr _ l =>
    let p := cloneList l (n + 1)
    (.arr n p.1, p.2)
  | .obj _ f =>
    let p := cloneFields f (n + 1)
    (.obj n p.1, p.2)
  | v => (v, n)
termination_by structural v

def cloneList (l : List JSVal) (n : Nat) : List JSVal × Nat :=
  match l with
  | [] => ([], n)
  | x :: xs =>
    let p := deepCloneN x n
    let q := cloneList xs p.2
    (p.1 :: q.1, q.2)
termination_by structural l

def cloneFields (f : List (String × JSVal)) (n : Nat) : List (String × JSVal) × Nat :=
  match f with
  | [] => ([], n)
  | (k, v) :: rest =>
    let p := deepCloneN v n
    let q := cloneFields rest p.2
    ((k, p.1) :: q.1, q.2)
termination_by structural f

end

mutual

/-- All reference ids occurring in a value (the value's mutable storage). -/
def refsOf (v : JSVal) : List Nat :=
  match v with
  | .arr r l => r :: refsOfList l
  | .obj r f => r :: refsOfFields f
  | _ => []
termination_by structural v

def refsOfList (l : List JSVal) : List Nat :=
  match l with
  | [] => []
  | x :: xs => refsOf x ++ refsOfList xs
termination_by structural l

def refsOfFields (f : List (String × JSVal)) : List Nat :=
  match f with
  | [] => []
  | (_, v) :: rest => refsOf v ++ refsOfFields rest
termination_by structural f

end

mutual

/-- Realizable JS value: each object's keys are pairwise distinct
(a JS object cannot carry a key twice), recursively. -/
def WFb (v : JSVal) : Bool :=
  match v with
  | .arr _ l => WFbList l
  | .obj _ f => WFbFields f
  | _ => true
termination_by structural v

def WFbList (l : List JSVal) : Bool :=
  match l with
  | [] => true
  | x :: xs => WFb x && WFbList xs
termination_by structural l

def WFbFields (f : List (String × JSVal)) : Bool :=
  match f with
  | [] => true
  | (k, v) :: rest =>
    !(rest.any (fun kv => kv.1 == k)) && WFb v && WFbFields rest
termination_by structural f

end

/-! ## compareStringCaseInsensitive and friendlyLinks -/

/-- Value of a digit run. -/
def digitsToNat (l : List Char) : Nat :=
  l.foldl (fun n c => 10 * n + (c.toNat - 48)) 0

/-- Natural-order, case-insensitive comparison of character lists: models
the documented behaviour of
`a.localeCompare(b, undefined, \x7bnumeric: true, sensitivity: 'base'\x7d)`
for ASCII strings (the host comparison is locale-defined; no verified
claim depends on a particular ordering). -/
def natCmp (l1 l2 : List Char) : Int :=
  match l1, l2 with
  | [], [] => 0
  | [], _ :: _ => -1
  | _ :: _, [] => 1
  | a :: as, b :: bs =>
    if isDigitChar a && isDigitChar b then
      let na := digitsToNat (a :: as.takeWhile isDigitChar)
      let nb := digitsToNat (b :: bs.takeWhile isDigitChar)
      if na < nb then -1
      else if nb < na then 1
      else natCmp (as.dropWhile isDigitChar) (bs.dropWhile isDigitChar)
    else
      if a.toLower.toNat < b.toLower.toNat then -1
      else if b.toLower.toNat < a.toLower.toNat then 1
      else natCmp as bs
termination_by l1.length + l2.length
decreasing_by
  · have h1 : (as.dropWhile isDigitChar).length ≤ as.length :=
      (List.dropWhile_sublist _).length_le
    have h2 : (bs.dropWhile isDigitChar).length ≤ bs.length :=
      (List.dropWhile_sublist _).length_le
    simp only [List.length_cons]
    omega
  · simp only [List.length_cons]
    omega

/-- `Utils.compareStringCaseInsensitive(a, b)`: non-strings are coerced
with `String(...)` before comparing. -/
def compareStringCI (a b : JSVal) : Int :=
  let sa := match a with
    | .str s => s
    | v => jsToString v
  let sb := match b with
    | .str s => s
    | v => jsToString v
  natCmp sa.data sb.data

/-- ASCII `toLowerCase` (the modelled strings are ASCII). -/
def lowerStr (s : String) : String := String.mk (s.data.map Char.toLower)

/-- Case-insensitive literal prefix: returns the rest of the input after
the pattern (given in lower case), or `none`. -/
def dropPrefixCI : List Char → List Char → Option (List Char)
  | [], l => some l
  | _ :: _, [] => none
  | p :: ps, c :: cs => if c.toLower = p then dropPrefixCI ps cs else none

/-- `href.replace(/^https?:\/\/(www.)?/i, '')`: strip a leading
`http://`/`https://` (case-insensitive) and then `www` plus one further
arbitrary character (the unescaped `.` of the source pattern), when
present. -/
def stripSchemeWww (s : String) : String :=
  let l := s.data
  let afterScheme := match dropPrefixCI "https://".data l with
    | some r => some r
    | none => dropPrefixCI "http://".data l
  match afterScheme with
  | none => s
  | some r =>
    let r2 := match r with
      | w1 :: w2 :: w3 :: c :: rest =>
        if w1.toLower = 'w' && w2.toLower = 'w' && w3.toLower = 'w' then
          rest
        else w1 :: w2 :: w3 :: c :: rest
      | r => r
    String.mk r2

/-- `Object.assign(\x7b\x7d, link)`: the source's own enumerable
properties as the fields of a fresh object — an object's fields, the
index properties of an array, the character properties of a string,
nothing for other primitives.  The fresh reference id is immaterial to
every claim and fixed to `0`. -/
def shallowCopyFields : JSVal → List (String × JSVal)
  | .obj _ f => f
  | .arr _ l => l.enum.map (fun ic => (toString ic.1, ic.2))
  | .str s => s.data.enum.map (fun ic => (toString ic.1, .str (String.mk [ic.2])))
  | _ => []

/-- `copy[k] = v`: overwrite in place, keeping the key's position, or
append a new key. -/
def setField (f : List (String × JSVal)) (k : String) (v : JSVal) : List (String × JSVal) :=
  match f with
  | [] => [(k, v)]
  | (k', w) :: rest => if k' = k then (k', v) :: rest else (k', w) :: setField rest k v

/-- Title derivation from `href` when no usable `rel` exists:
`link.href.replace(...).replace(...)`; a missing or non-string `href` has
no `replace` method, a `TypeError`. -/
def hrefTitle (fields : List (String × JSVal)) : Except JSErr (List (String × JSVal)) :=
  match lookupField "href" fields with
  | some (.str h) =>
    .ok (setField fields "title" (.str (stripTrailingSlash (stripSchemeWww h))))
  | _ => .error .typeError

/-- The skip condition of the `friendlyLinks` loop:
`typeof link.rel === 'string' && ignoreRel.includes(link.rel.toLowerCase())`
(the link's `rel` is lower-cased, the `ignoreRel` entries are compared
verbatim). -/
def matchesIgnore (link : JSVal) (ignoreRel : List String) : Bool :=
  match lookupField "rel" (shallowCopyFields link) with
  | some (.str r) => ignoreRel.contains (lowerStr r)
  | _ => false

/-- One iteration of the `friendlyLinks` loop; `none` models `continue`.
`prettifyString(link.rel)` on a single string joins a one-element array,
i.e. is `prettifyOne`. -/
def processOne (link : JSVal) (ignoreRel : List String) : Except JSErr (Option JSVal) :=
  let fields := shallowCopyFields link
  let relV := lookupField "rel" fields
  if matchesIgnore link ignoreRel then .ok none
  else
    let titleOk := match lookupField "title" fields with
      | some (.str t) => t.length != 0
      | _ => false
    if titleOk then .ok (some (.obj 0 fields))
    else
      match relV with
      | some (.str r) =>
        if 1 < r.length then
          .ok (some (.obj 0 (setField fields "title" (.str (prettifyOne r)))))
        else
          match hrefTitle fields with
          | .ok fields' => .ok (some (.obj 0 fields'))
          | .error e => .error e
      | _ =>
        match hrefTitle fields with
        | .ok fields' => .ok (some (.obj 0 fields'))
        | .error e => .error e

/-- The `for..of` loop of `friendlyLinks`. -/
def processLinks : List JSVal → List String → Except JSErr (List JSVal)
  | [], _ => .ok []
  | l :: rest, ig =>
    match processOne l ig, processLinks rest ig with
    | .error e, _ => .error e
    | .ok _, .error e => .error e
    | .ok none, .ok rs => .ok rs
    | .ok (some v), .ok rs => .ok (v :: rs)

/-- `a.title` coerced as the comparator coerces it.  The processed links
are always objects carrying a string title; the other branches model the
`String(...)` coercion of the comparator on degenerate fields. -/
def titleStringOf (v : JSVal) : String :=
  match v with
  | .obj _ f =>
    match lookupField "title" f with
    | some (.str s) => s
    | some w => jsToString w
    | none => "undefined"
  | _ => "undefined"

/-- The sort comparator `(a, b) => Utils.compareStringCaseInsensitive(a.title, b.title)`. -/
def cmpLinks (a b : JSVal) : Int :=
  natCmp (titleStringOf a).data (titleStringOf b).data

def insertLink (x : JSVal) : List JSVal → List JSVal
  | [] => [x]
  | y :: ys => if cmpLinks x y < 0 then x :: y :: ys else y :: insertLink x ys

/-- `links.sort(cmp)`: a stable, comparator-consistent reordering, as
`Array.prototype.sort` guarantees (modelled by insertion sort). -/
def sortLinks : List JSVal → List JSVal
  | [] => []
  | x :: xs => insertLink x (sortLinks xs)

/-- `Utils.friendlyLinks(linkList, sort, ignoreRel)`. -/
def friendlyLinksJS (linkList : JSVal) (srt : Bool) (ignoreRel : List String) :
    Except JSErr (List JSVal) :=
  match linkList with
  | .arr _ links =>
    match processLinks links ignoreRel with
    | .error e => .error e
    | .ok ls => .ok (if srt then sortLinks ls else ls)
  | _ => .ok []

/-! ## Support lemmas -/

theorem stripTrailingSlash_data (s : String) :
    (stripTrailingSlash s).data = (dropSlashRev s.data.reverse).reverse := rfl

theorem dropSlashRev_idem (l : List Char)
    (h : ∀ d rest, l ≠ '/' :: d :: rest ∨ d ≠ '/') :
    dropSlashRev (dropSlashRev l) = dropSlashRev l := by
  cases l with
  | nil => rfl
  | cons c rest =>
    by_cases hc : c = '/'
    · subst hc
      simp only [dropSlashRev, if_pos rfl]
      cases rest with
      | nil => rfl
      | cons d rest' =>
        have hd : d ≠ '/' := by
          rcases h d rest' with h1 | h1
          · exact absurd rfl h1
          · exact h1
        simp [dropSlashRev, hd]
    · simp [dropSlashRev, hc]

theorem stripTrailingSlash_idem (u : String) (h : endsTwoSlashes u = false) :
    stripTrailingSlash (stripTrailingSlash u) = stripTrailingSlash u := by
  unfold stripTrailingSlash
  rw [show (String.mk (dropSlashRev u.data.reverse).reverse).data
      = (dropSlashRev u.data.reverse).reverse from rfl, List.reverse_reverse]
  congr 1
  congr 1
  apply dropSlashRev_idem
  intro d rest
  by_cases heq : u.data.reverse = '/' :: d :: rest
  · right
    intro hd
    subst hd
    unfold endsTwoSlashes at h
    rw [heq] at h
    simp at h
  · left; exact heq

theorem isPrefixOf_true_iff (p l : List Char) :
    p.isPrefixOf l = true ↔ ∃ t, l = p ++ t := by
  induction p generalizing l with
  | nil =>
    refine ⟨fun _ => ⟨l, rfl⟩, fun _ => ?_⟩
    cases l <;> rfl
  | cons a p' ih =>
    cases l with
    | nil =>
      constructor
      · intro h; exact absurd h (by simp [List.isPrefixOf])
      · rintro ⟨t, ht⟩; exact absurd ht (by simp)
    | cons c l' =>
      constructor
      · intro h
        have h2 : (a == c) = true ∧ p'.isPrefixOf l' = true := by
          simpa [List.isPrefixOf] using h
        have hac : a = c := by simpa using h2.1
        obtain ⟨t, ht⟩ := (ih l').mp h2.2
        exact ⟨t, by rw [ht, hac]; rfl⟩
      · rintro ⟨t, ht⟩
        injection ht with h1 h2
        subst h1
        have := (ih l').mpr ⟨t, h2⟩
        simp [List.isPrefixOf, this]

theorem containsSub_eq_cons (pat : List Char) (c : Char) (rest : List Char) :
    containsSub pat (c :: rest)
      = (pat.isPrefixOf (c :: rest) || containsSub pat rest) := rfl

theorem containsSub_cons (pat : List Char) (c : Char) (rest : List Char)
    (h : containsSub pat (c :: rest) = false) : containsSub pat rest = false := by
  rw [containsSub_eq_cons] at h
  exact (Bool.or_eq_false_iff.mp h).2

/-- If `pat` does not occur in the first `|pre| + |pat| - 1` characters of
`pre ++ pat ++ post`, then `replace` substitutes exactly the shown
occurrence (the expanded replacement, with `before` being the consumed
prefix) and returns the rest verbatim. -/
theorem replaceFirstAux_append (pat rep post : List Char) :
    ∀ (pre acc : List Char),
      containsSub pat (pre ++ pat.dropLast) = false →
      replaceFirstAux pat rep acc (pre ++ (pat ++ post))
        = pre ++ (expandRep pat (acc.reverse ++ pre) post rep ++ post) := by
  intro pre
  induction pre with
  | nil =>
    intro acc h
    have hp : pat.isPrefixOf (pat ++ post) = true :=
      (isPrefixOf_true_iff pat (pat ++ post)).mpr ⟨post, rfl⟩
    rw [List.nil_append, List.nil_append, List.append_nil]
    cases hpat : (pat ++ post) with
    | nil =>
      obtain ⟨h1, h2⟩ := List.append_eq_nil.mp hpat
      subst h1; subst h2
      simp [replaceFirstAux, List.isPrefixOf]
    | cons c rest =>
      show (if pat.isPrefixOf (c :: rest) then
            expandRep pat acc.reverse ((c :: rest).drop pat.length) rep
              ++ (c :: rest).drop pat.length
          else c :: replaceFirstAux pat rep (c :: acc) rest)
        = expandRep pat acc.reverse post rep ++ post
      rw [if_pos (hpat ▸ hp), ← hpat, List.drop_left]
  | cons c pre' ih =>
    intro acc h
    have hpatne : pat ≠ [] := by
      intro hnil
      subst hnil
      simp [containsSub, List.isPrefixOf] at h
    have hpat1 : 1 ≤ pat.length := List.length_pos.mpr hpatne
    have hcons : containsSub pat ((c :: pre') ++ pat.dropLast)
        = (pat.isPrefixOf (c :: (pre' ++ pat.dropLast))
            || containsSub pat (pre' ++ pat.dropLast)) := rfl
    rw [hcons] at h
    obtain ⟨hnopre, hrest⟩ := Bool.or_eq_false_iff.mp h
    by_cases hp : pat.isPrefixOf ((c :: pre') ++ (pat ++ post)) = true
    · exfalso
      obtain ⟨t, ht⟩ := (isPrefixOf_true_iff _ _).mp hp
      have hpre : pat.isPrefixOf (c :: (pre' ++ pat.dropLast)) = true := by
        apply (isPrefixOf_true_iff _ _).mpr
        refine ⟨t.take pre'.length, ?_⟩
        have htake : ((c :: pre') ++ (pat ++ post)).take (pre'.length + pat.length)
            = (c :: pre') ++ pat.dropLast := by
          rw [List.take_append_eq_append_take]
          have hle : (c :: pre').length ≤ pre'.length + pat.length := by
            simp only [List.length_cons]; omega
          rw [List.take_of_length_le hle]
          congr 1
          rw [List.take_append_eq_append_take]
          have hlen2 : pre'.length + pat.length - (c :: pre').length = pat.length - 1 := by
            simp only [List.length_cons]; omega
          rw [hlen2]
          rw [List.dropLast_eq_take]
          have hz : (pat.length - 1 - pat.length) = 0 := by omega
          rw [hz, List.take_zero, List.append_nil]
        have htake2 : (pat ++ t).take (pre'.length + pat.length)
            = pat ++ t.take pre'.length := by
          rw [List.take_append_eq_append_take]
          have hle : pat.length ≤ pre'.length + pat.length := by omega
          rw [List.take_of_length_le hle]
          congr 2
          omega
        have : c :: (pre' ++ pat.dropLast) = pat ++ t.take pre'.length := by
          calc c :: (pre' ++ pat.dropLast)
              = (c :: pre') ++ pat.dropLast := rfl
            _ = ((c :: pre') ++ (pat ++ post)).take (pre'.length + pat.length) := htake.symm
            _ = (pat ++ t).take (pre'.length + pat.length) := by rw [ht]
            _ = pat ++ t.take pre'.length := htake2
        exact this
      rw [hpre] at hnopre
      exact absurd hnopre (by decide)
    · have hgoal : (c :: pre') ++ (pat ++ post) = c :: (pre' ++ (pat ++ post)) := rfl
      rw [hgoal]
      show (if pat.isPrefixOf (c :: (pre' ++ (pat ++ post))) then
            expandRep pat acc.reverse
                ((c :: (pre' ++ (pat ++ post))).drop pat.length) rep
              ++ (c :: (pre' ++ (pat ++ post))).drop pat.length
          else c :: replaceFirstAux pat rep (c :: acc) (pre' ++ (pat ++ post)))
        = (c :: pre') ++ (expandRep pat (acc.reverse ++ (c :: pre')) post rep ++ post)
      rw [if_neg (by simpa using hp)]
      rw [ih (c :: acc) hrest]
      have hacc : (c :: acc).reverse ++ pre' = acc.reverse ++ (c :: pre') := by
        rw [List.reverse_cons, List.append_assoc]
        rfl
      rw [hacc]
      rfl

theorem replaceFirstL_append (pat rep pre post : List Char)
    (h : containsSub pat (pre ++ pat.dropLast) = false) :
    replaceFirstL pat rep (pre ++ (pat ++ post))
      = pre ++ (expandRep pat pre post rep ++ post) := by
  have h2 := replaceFirstAux_append pat rep post pre [] h
  rw [show (([] : List Char).reverse ++ pre) = pre from rfl] at h2
  exact h2

/-- A replacement free of `$` is inserted verbatim. -/
theorem expandRep_no_dollar (m b a : List Char) :
    ∀ (rep : List Char), rep.contains '$' = false → expandRep m b a rep = rep
  | [], _ => rfl
  | c :: rest, h => by
    have hmem : '$' ∉ (c :: rest) := by simpa using h
    have hc : c ≠ '$' := fun he => hmem (he ▸ List.mem_cons_self c rest)
    have hrest : rest.contains '$' = false := by
      cases hcon : rest.contains '$' with
      | false => rfl
      | true =>
        have : '$' ∈ rest := by simpa using hcon
        exact absurd (List.mem_cons_of_mem c this) hmem
    unfold expandRep
    rw [if_neg hc, expandRep_no_dollar m b a rest hrest]

theorem isAsciiLower_iff (c : Char) :
    isAsciiLower c = true ↔ (97 ≤ c.toNat ∧ c.toNat ≤ 122) := by
  simp [isAsciiLower]

theorem toUpper_eq_of_not_lower (c : Char) (h : isAsciiLower c = false) :
    c.toUpper = c := by
  have h2 : ¬(97 ≤ c.toNat ∧ c.toNat ≤ 122) := by
    rw [← isAsciiLower_iff, h]
    simp
  simp only [Char.toUpper]
  rw [if_neg (by simpa [ge_iff_le] using h2)]

theorem digit_not_lower (c : Char) (h : isDigitChar c = true) :
    isAsciiLower c = false := by
  simp only [isDigitChar, Bool.and_eq_true, decide_eq_true_eq] at h
  simp only [isAsciiLower, Bool.and_eq_false_iff]
  left
  simp
  omega

theorem digit_not_upper (c : Char) (h : isDigitChar c = true) :
    isAsciiUpper c = false := by
  simp only [isDigitChar, Bool.and_eq_true, decide_eq_true_eq] at h
  simp only [isAsciiUpper, Bool.and_eq_false_iff]
  left
  simp
  omega

theorem replaceSep_noMatch (sep : Char) :
    ∀ (l : List Char), hasTriple sep l = false → replaceSep sep l = l
  | [] => fun _ => rfl
  | [_] => fun _ => rfl
  | [_, _] => fun _ => rfl
  | a :: b :: c :: rest => fun h => by
    have hcons : hasTriple sep (a :: b :: c :: rest)
        = ((isAsciiAlnum a && b == sep && isAsciiAlnum c)
            || hasTriple sep (b :: c :: rest)) := rfl
    rw [hcons] at h
    obtain ⟨h1, h2⟩ := Bool.or_eq_false_iff.mp h
    show (if isAsciiAlnum a && b == sep && isAsciiAlnum c then
            a :: ' ' :: c.toUpper :: replaceSep sep rest
          else a :: replaceSep sep (b :: c :: rest)) = a :: b :: c :: rest
    rw [if_neg (by simp [h1]), replaceSep_noMatch sep (b :: c :: rest) h2]

theorem camelReplace_noMatch :
    ∀ (l : List Char), hasCamelPair l = false → camelReplace l = l
  | [] => fun _ => rfl
  | [_] => fun _ => rfl
  | a :: b :: rest => fun h => by
    have hcons : hasCamelPair (a :: b :: rest)
        = ((isAsciiLower a && isAsciiUpper b) || hasCamelPair (b :: rest)) := rfl
    rw [hcons] at h
    obtain ⟨h1, h2⟩ := Bool.or_eq_false_iff.mp h
    show (if isAsciiLower a && isAsciiUpper b then
            a :: ' ' :: b.toUpper :: camelReplace rest
          else a :: camelReplace (b :: rest)) = a :: b :: rest
    rw [if_neg (by simp [h1]), camelReplace_noMatch (b :: rest) h2]

theorem replaceSep_head (sep a : Char) (l : List Char) :
    ∃ t, replaceSep sep (a :: l) = a :: t := by
  cases l with
  | nil => exact ⟨[], rfl⟩
  | cons b l' =>
    cases l' with
    | nil => exact ⟨[b], rfl⟩
    | cons c rest =>
      show ∃ t, (if isAsciiAlnum a && b == sep && isAsciiAlnum c then
          a :: ' ' :: c.toUpper :: replaceSep sep rest
        else a :: replaceSep sep (b :: c :: rest)) = a :: t
      split
      · exact ⟨_, rfl⟩
      · exact ⟨_, rfl⟩

theorem camelReplace_head (a : Char) (l : List Char) :
    ∃ t, camelReplace (a :: l) = a :: t := by
  cases l with
  | nil => exact ⟨[], rfl⟩
  | cons b l' =>
    show ∃ t, (if isAsciiLower a && isAsciiUpper b then
        a :: ' ' :: b.toUpper :: camelReplace l'
      else a :: camelReplace (b :: l')) = a :: t
    split
    · exact ⟨_, rfl⟩
    · exact ⟨_, rfl⟩

/-! ### Decimal-literal structure -/

theorem digits1_mem (m : List Char) (h : digits1 m = true) :
    ∀ c ∈ m, isDigitChar c = true := by
  simp only [digits1, Bool.and_eq_true, List.all_eq_true] at h
  exact h.2

theorem dropSign_cons (a : Char) (t : List Char) :
    dropSign (a :: t) = if a = '+' || a = '-' then t else a :: t := rfl

theorem dropSign_cons_sign (a : Char) (t : List Char) (ha : a = '+' ∨ a = '-') :
    dropSign (a :: t) = t := by
  rcases ha with h1 | h1 <;> simp [dropSign_cons, h1]

theorem dropSign_cons_nosign (a : Char) (t : List Char) (ha : ¬(a = '+' ∨ a = '-')) :
    dropSign (a :: t) = a :: t := by
  obtain ⟨ha1, ha2⟩ := not_or.mp ha
  simp [dropSign_cons, ha1, ha2]

theorem signedDigits_chars (m : List Char) (h : digits1 (dropSign m) = true) :
    ∀ c ∈ m, (isDigitChar c = true ∨ c = '+' ∨ c = '-') := by
  intro c hc
  cases m with
  | nil => cases hc
  | cons a t =>
    by_cases ha : a = '+' ∨ a = '-'
    · rw [dropSign_cons_sign a t ha] at h
      rcases List.mem_cons.mp hc with h1 | h1
      · right; rw [h1]; exact ha
      · exact Or.inl (digits1_mem t h c h1)
    · rw [dropSign_cons_nosign a t ha] at h
      exact Or.inl (digits1_mem _ h c hc)

theorem digits1_ne_nil (m : List Char) (h : digits1 m = true) : m ≠ [] := by
  intro he
  subst he
  simp [digits1] at h

theorem expOk_cases (r : List Char) (h : expOk r = true) :
    r = [] ∨ ∃ c rest, r = c :: rest ∧ (c = 'e' ∨ c = 'E')
      ∧ digits1 (dropSign rest) = true := by
  cases r with
  | nil => exact Or.inl rfl
  | cons c rest =>
    right
    have h2 : ((c = 'e' || c = 'E') && digits1 (dropSign rest)) = true := h
    simp only [Bool.and_eq_true, Bool.or_eq_true, decide_eq_true_eq] at h2
    exact ⟨c, rest, rfl, h2.1, h2.2⟩

theorem expOk_allowed (r : List Char) (h : expOk r = true) :
    ∀ c ∈ r, isAllowedNum c = true := by
  intro c hc
  rcases expOk_cases r h with h1 | ⟨e, rest, hr, he, hd⟩
  · subst h1; cases hc
  · subst hr
    rcases List.mem_cons.mp hc with h1 | h1
    · subst h1
      rcases he with h2 | h2 <;> simp [isAllowedNum, h2]
    · rcases signedDigits_chars rest hd c h1 with h2 | h2 | h2
      · simp [isAllowedNum, h2]
      · simp [isAllowedNum, h2]
      · simp [isAllowedNum, h2]

theorem mantRest_eq (l : List Char) :
    mantRest l =
      (match l.dropWhile isDigitChar with
       | [] => !(l.takeWhile isDigitChar).isEmpty
       | c :: r2 =>
         if c = '.' then
           ((!(l.takeWhile isDigitChar).isEmpty || !(r2.takeWhile isDigitChar).isEmpty)
             && expOk (r2.dropWhile isDigitChar))
         else !(l.takeWhile isDigitChar).isEmpty && expOk (l.dropWhile isDigitChar)) := rfl

theorem mantRest_cases (l : List Char) (h : mantRest l = true) :
    (l.dropWhile isDigitChar = [] ∧ (l.takeWhile isDigitChar).isEmpty = false) ∨
    (∃ r2, l.dropWhile isDigitChar = '.' :: r2
      ∧ ((l.takeWhile isDigitChar).isEmpty = false
          ∨ (r2.takeWhile isDigitChar).isEmpty = false)
      ∧ expOk (r2.dropWhile isDigitChar) = true) ∨
    (∃ c r2, l.dropWhile isDigitChar = c :: r2 ∧ c ≠ '.'
      ∧ (l.takeWhile isDigitChar).isEmpty = false
      ∧ expOk (l.dropWhile isDigitChar) = true) := by
  rw [mantRest_eq] at h
  cases hr : l.dropWhile isDigitChar with
  | nil =>
    simp only [hr, Bool.not_eq_true'] at h
    exact Or.inl ⟨rfl, h⟩
  | cons c r2 =>
    simp only [hr] at h
    by_cases hc : c = '.'
    · subst hc
      rw [if_pos rfl] at h
      simp only [Bool.and_eq_true, Bool.or_eq_true, Bool.not_eq_true'] at h
      exact Or.inr (Or.inl ⟨r2, rfl, h.1, h.2⟩)
    · rw [if_neg hc] at h
      simp only [Bool.and_eq_true, Bool.not_eq_true'] at h
      exact Or.inr (Or.inr ⟨c, r2, rfl, hc, h.1, h.2⟩)

theorem takeWhile_allowed (l : List Char) :
    ∀ c ∈ l.takeWhile isDigitChar, isAllowedNum c = true := by
  intro c hc
  have := List.mem_takeWhile_imp hc
  simp [isAllowedNum, this]

theorem mantRest_allowed (l : List Char) (h : mantRest l = true) :
    ∀ c ∈ l, isAllowedNum c = true := by
  intro c hc
  rw [← List.takeWhile_append_dropWhile (p := isDigitChar) (l := l)] at hc
  rcases List.mem_append.mp hc with h1 | h1
  · exact takeWhile_allowed l c h1
  · rcases mantRest_cases l h with ⟨hnil, _⟩ | ⟨r2, hr, _, hexp⟩ | ⟨d, r2, hr, _, _, hexp⟩
    · rw [hnil] at h1; cases h1
    · rw [hr] at h1
      rcases List.mem_cons.mp h1 with h2 | h2
      · simp [isAllowedNum, h2]
      · rw [← List.takeWhile_append_dropWhile (p := isDigitChar) (l := r2)] at h2
        rcases List.mem_append.mp h2 with h3 | h3
        · exact takeWhile_allowed r2 c h3
        · exact expOk_allowed _ hexp c h3
    · exact expOk_allowed _ hexp c h1

theorem decLit_allowed (l : List Char) (h : decLit l = true) :
    ∀ c ∈ l, isAllowedNum c = true := by
  intro c hc
  unfold decLit at h
  cases l with
  | nil => cases hc
  | cons a t =>
    by_cases ha : a = '+' ∨ a = '-'
    · rw [dropSign_cons_sign a t ha] at h
      rcases List.mem_cons.mp hc with h1 | h1
      · rw [h1]
        rcases ha with h2 | h2 <;> simp [isAllowedNum, h2]
      · exact mantRest_allowed t h c h1
    · rw [dropSign_cons_nosign a t ha] at h
      exact mantRest_allowed _ h c hc

theorem contains_underscore_false (l : List Char)
    (hall : ∀ c ∈ l, isAllowedNum c = true) : l.contains '_' = false := by
  cases hcon : l.contains '_' with
  | false => rfl
  | true =>
    have hmem : '_' ∈ l := by simpa using hcon
    have h2 := hall '_' hmem
    have h3 : isAllowedNum '_' = false := by decide
    rw [h3] at h2
    exact absurd h2 (by decide)

theorem hcp_cons_nonlower (c : Char) (l : List Char) (hc : isAsciiLower c = false) :
    hasCamelPair (c :: l) = hasCamelPair l := by
  cases l with
  | nil => rfl
  | cons b rest =>
    have : hasCamelPair (c :: b :: rest)
        = ((isAsciiLower c && isAsciiUpper b) || hasCamelPair (b :: rest)) := rfl
    rw [this, hc]
    simp

theorem hcp_all_nonlower (l : List Char) (h : ∀ c ∈ l, isAsciiLower c = false) :
    hasCamelPair l = false := by
  induction l with
  | nil => rfl
  | cons c rest ih =>
    rw [hcp_cons_nonlower c rest (h c (List.mem_cons_self c rest))]
    exact ih (fun x hx => h x (List.mem_cons_of_mem c hx))

theorem hcp_append_nonlower (p r : List Char) (h : ∀ c ∈ p, isAsciiLower c = false) :
    hasCamelPair (p ++ r) = hasCamelPair r := by
  induction p with
  | nil => rfl
  | cons c p' ih =>
    rw [List.cons_append, hcp_cons_nonlower c _ (h c (List.mem_cons_self c p'))]
    exact ih (fun x hx => h x (List.mem_cons_of_mem c hx))

theorem sign_or_digit_not_lower (c : Char)
    (h : isDigitChar c = true ∨ c = '+' ∨ c = '-') : isAsciiLower c = false := by
  rcases h with h1 | h1 | h1
  · exact digit_not_lower c h1
  · rw [h1]; decide
  · rw [h1]; decide

theorem sign_or_digit_not_upper (c : Char)
    (h : isDigitChar c = true ∨ c = '+' ∨ c = '-') : isAsciiUpper c = false := by
  rcases h with h1 | h1 | h1
  · exact digit_not_upper c h1
  · rw [h1]; decide
  · rw [h1]; decide

theorem expOk_noCamel (r : List Char) (h : expOk r = true) :
    hasCamelPair r = false := by
  rcases expOk_cases r h with h1 | ⟨e, rest, hr, _, hd⟩
  · rw [h1]; rfl
  · subst hr
    have hrest_nl : ∀ c ∈ rest, isAsciiLower c = false :=
      fun c hc => sign_or_digit_not_lower c (signedDigits_chars rest hd c hc)
    cases hrestc : rest with
    | nil =>
      subst hrestc
      simp [digits1, dropSign] at hd
    | cons d t =>
      have hpair : hasCamelPair (e :: d :: t)
          = ((isAsciiLower e && isAsciiUpper d) || hasCamelPair (d :: t)) := rfl
      rw [hpair]
      have hd_nu : isAsciiUpper d = false := by
        apply sign_or_digit_not_upper
        apply signedDigits_chars rest hd
        rw [hrestc]
        exact List.mem_cons_self d t
      rw [hd_nu]
      have : hasCamelPair (d :: t) = false := by
        apply hcp_all_nonlower
        intro c hc
        apply hrest_nl
        rw [hrestc]
        exact hc
      rw [this]
      simp

theorem mantRest_noCamel (l : List Char) (h : mantRest l = true) :
    hasCamelPair l = false := by
  have htw : ∀ c ∈ l.takeWhile isDigitChar, isAsciiLower c = false :=
    fun c hc => digit_not_lower c (List.mem_takeWhile_imp hc)
  rw [← List.takeWhile_append_dropWhile (p := isDigitChar) (l := l),
    hcp_append_nonlower _ _ htw]
  rcases mantRest_cases l h with ⟨hnil, _⟩ | ⟨r2, hr, _, hexp⟩ | ⟨c, r2, hr, _, _, hexp⟩
  · rw [hnil]; rfl
  · rw [hr]
    have hdot : isAsciiLower '.' = false := by decide
    rw [hcp_cons_nonlower '.' r2 hdot]
    have htw2 : ∀ c ∈ r2.takeWhile isDigitChar, isAsciiLower c = false :=
      fun c hc => digit_not_lower c (List.mem_takeWhile_imp hc)
    rw [← List.takeWhile_append_dropWhile (p := isDigitChar) (l := r2),
      hcp_append_nonlower _ _ htw2]
    exact expOk_noCamel _ hexp
  · exact expOk_noCamel _ hexp

theorem decLit_noCamel (l : List Char) (h : decLit l = true) :
    hasCamelPair l = false := by
  unfold decLit at h
  cases l with
  | nil => rfl
  | cons a t =>
    by_cases ha : a = '+' ∨ a = '-'
    · rw [dropSign_cons_sign a t ha] at h
      rw [hcp_cons_nonlower a t (sign_or_digit_not_lower a (Or.inr ha))]
      exact mantRest_noCamel t h
    · rw [dropSign_cons_nosign a t ha] at h
      exact mantRest_noCamel _ h

theorem decLit_capitalize (l : List Char) (h : decLit l = true) :
    capitalizeFirst l = l := by
  unfold decLit at h
  cases l with
  | nil => rfl
  | cons a t =>
    show a.toUpper :: t = a :: t
    suffices hup : a.toUpper = a by rw [hup]
    apply toUpper_eq_of_not_lower
    by_cases ha : a = '+' ∨ a = '-'
    · exact sign_or_digit_not_lower a (Or.inr ha)
    · rw [dropSign_cons_nosign a t ha] at h
      by_cases hd : isDigitChar a = true
      · exact digit_not_lower a hd
      · have hdw : (a :: t).dropWhile isDigitChar = a :: t := by
          rw [List.dropWhile_cons_of_neg]
          simp [hd]
        rcases mantRest_cases _ h with ⟨hnil, _⟩ | ⟨r2, hr, _, _⟩ | ⟨c, r2, hr, hnd, htw, _⟩
        · rw [hdw] at hnil; cases hnil
        · rw [hdw] at hr
          have : a = '.' := (List.cons_eq_cons.mp hr).1
          rw [this]; decide
        · rw [List.takeWhile_cons_of_neg (by simp [hd])] at htw
          simp at htw

theorem prettifyOne_expand (s : String) :
    prettifyOne s = (if 3 ≤ s.length then
        String.mk (capitalizeFirst
          (if s.data.contains '_' then replaceSep '_' s.data
           else if s.data.contains '-' then replaceSep '-' s.data
           else camelReplace s.data))
      else s) := rfl

theorem decLit_head_not_lower (l : List Char) (h : decLit l = true) :
    ∀ c t, l = c :: t → isAsciiLower c = false := by
  intro c t hl
  subst hl
  unfold decLit at h
  by_cases ha : c = '+' ∨ c = '-'
  · exact sign_or_digit_not_lower c (Or.inr ha)
  · rw [dropSign_cons_nosign c t ha] at h
    by_cases hd : isDigitChar c = true
    · exact digit_not_lower c hd
    · rcases mantRest_cases _ h with ⟨hnil, _⟩ | ⟨r2, hr, _, _⟩ | ⟨d, r2, hr, hnd, htw, _⟩
      · rw [List.dropWhile_cons_of_neg (by simp [hd])] at hnil
        cases hnil
      · rw [List.dropWhile_cons_of_neg (by simp [hd])] at hr
        have : c = '.' := (List.cons_eq_cons.mp hr).1
        rw [this]; decide
      · rw [List.takeWhile_cons_of_neg (by simp [hd])] at htw
        simp at htw

theorem nonDecLit_parts (l : List Char) (h : nonDecLit l = true) :
    ∃ z c rest, l = z :: c :: rest ∧ z = '0'
      ∧ (c = 'x' ∨ c = 'X' ∨ c = 'o' ∨ c = 'O' ∨ c = 'b' ∨ c = 'B')
      ∧ ∀ d ∈ rest, isHexDigit d = true := by
  match l with
  | [] => cases h
  | [_] => cases h
  | z :: c :: rest =>
    refine ⟨z, c, rest, rfl, ?_⟩
    have h2 : z = '0' ∧
        ((((c = 'x' ∨ c = 'X') ∧ ¬rest = [] ∧ ∀ x ∈ rest, isHexDigit x = true) ∨
            (c = 'o' ∨ c = 'O') ∧ ¬rest = [] ∧ ∀ x ∈ rest, isOctDigit x = true) ∨
          (c = 'b' ∨ c = 'B') ∧ ¬rest = [] ∧ ∀ x ∈ rest, isBinDigit x = true) := by
      simpa [nonDecLit, Bool.and_eq_true, Bool.or_eq_true] using h
    refine ⟨h2.1, ?_, ?_⟩
    · rcases h2.2 with (⟨hm, _⟩ | ⟨hm, _⟩) | ⟨hm, _⟩
      · rcases hm with hm | hm
        · exact Or.inl hm
        · exact Or.inr (Or.inl hm)
      · rcases hm with hm | hm
        · exact Or.inr (Or.inr (Or.inl hm))
        · exact Or.inr (Or.inr (Or.inr (Or.inl hm)))
      · rcases hm with hm | hm
        · exact Or.inr (Or.inr (Or.inr (Or.inr (Or.inl hm))))
        · exact Or.inr (Or.inr (Or.inr (Or.inr (Or.inr hm))))
    · intro d hd
      rcases h2.2 with (⟨_, _, hall⟩ | ⟨_, _, hall⟩) | ⟨_, _, hall⟩
      · exact hall d hd
      · have := hall d hd
        simp only [isOctDigit, Bool.and_eq_true, decide_eq_true_eq] at this
        simp only [isHexDigit, isDigitChar, Bool.or_eq_true, Bool.and_eq_true,
          decide_eq_true_eq]
        left; left; omega
      · have := hall d hd
        simp only [isBinDigit, Bool.and_eq_true, decide_eq_true_eq] at this
        simp only [isHexDigit, isDigitChar, Bool.or_eq_true, Bool.and_eq_true,
          decide_eq_true_eq]
        left; left; omega

theorem numLit_allowed (l : List Char) (h : numLit l = true) :
    ∀ c ∈ l, isAllowedNumChar c = true := by
  intro c hc
  rcases Bool.or_eq_true_iff.mp h with h1 | h1
  · have := decLit_allowed l h1 c hc
    simp [isAllowedNumChar, this]
  · obtain ⟨z, d, rest, hl, hz, hd, hall⟩ := nonDecLit_parts l h1
    subst hl
    rcases List.mem_cons.mp hc with h2 | h2
    · rw [h2, hz]; decide
    · rcases List.mem_cons.mp h2 with h3 | h3
      · rw [h3]
        rcases hd with h4 | h4 | h4 | h4 | h4 | h4 <;> rw [h4] <;> decide
      · have := hall c h3
        simp [isAllowedNumChar, this]

theorem numLit_head_not_lower (l : List Char) (h : numLit l = true) :
    ∀ c t, l = c :: t → isAsciiLower c = false := by
  intro c t hl
  rcases Bool.or_eq_true_iff.mp h with h1 | h1
  · exact decLit_head_not_lower l h1 c t hl
  · obtain ⟨z, d, rest, hl2, hz, _, _⟩ := nonDecLit_parts l h1
    rw [hl] at hl2
    have : c = '0' := by
      have := (List.cons_eq_cons.mp hl2).1
      rw [this, hz]
    rw [this]; decide

theorem isWS_not_lower (c : Char) (h : isWS c = true) : isAsciiLower c = false := by
  have h2 : ((((c = ' ' ∨ c = '\t') ∨ c = '\n') ∨ c = '\r') ∨ c = '\x0b')
      ∨ c = '\x0c' := by
    simpa [isWS] using h
  rcases h2 with ((((h3 | h3) | h3) | h3) | h3) | h3 <;> rw [h3] <;> decide

theorem trimWS_decomp (l : List Char) :
    ∃ ws2, l.dropWhile isWS = trimWS l ++ ws2 ∧ ∀ c ∈ ws2, isWS c = true := by
  refine ⟨((l.dropWhile isWS).reverse.takeWhile isWS).reverse, ?_, ?_⟩
  · show l.dropWhile isWS
      = ((l.dropWhile isWS).reverse.dropWhile isWS).reverse
        ++ ((l.dropWhile isWS).reverse.takeWhile isWS).reverse
    have h1 : (l.dropWhile isWS).reverse
        = (l.dropWhile isWS).reverse.takeWhile isWS
          ++ (l.dropWhile isWS).reverse.dropWhile isWS :=
      (List.takeWhile_append_dropWhile (p := isWS)
        (l := (l.dropWhile isWS).reverse)).symm
    calc l.dropWhile isWS
        = (l.dropWhile isWS).reverse.reverse := (List.reverse_reverse _).symm
      _ = ((l.dropWhile isWS).reverse.takeWhile isWS
            ++ (l.dropWhile isWS).reverse.dropWhile isWS).reverse := by rw [← h1]
      _ = ((l.dropWhile isWS).reverse.dropWhile isWS).reverse
            ++ ((l.dropWhile isWS).reverse.takeWhile isWS).reverse := by
          rw [List.reverse_append]
  · intro c hc
    have : c ∈ (l.dropWhile isWS).reverse.takeWhile isWS := by
      simpa using hc
    exact List.mem_takeWhile_imp this

theorem isNumeric_no_underscore (s : String) (h : isNumeric s = true) :
    s.data.contains '_' = false := by
  cases hcon : s.data.contains '_' with
  | false => rfl
  | true =>
    exfalso
    have hmem : '_' ∈ s.data := by simpa using hcon
    obtain ⟨ws2, hdec, hws2⟩ := trimWS_decomp s.data
    rw [← List.takeWhile_append_dropWhile (p := isWS) (l := s.data), hdec] at hmem
    rcases List.mem_append.mp hmem with h1 | h1
    · have := List.mem_takeWhile_imp h1
      simp [isWS] at this
    · rcases List.mem_append.mp h1 with h2 | h2
      · have := numLit_allowed _ h '_' h2
        simp [isAllowedNumChar, isAllowedNum, isHexDigit, isDigitChar] at this
      · have := hws2 '_' h2
        simp [isWS] at this

theorem isNumeric_capitalize (s : String) (h : isNumeric s = true) :
    capitalizeFirst s.data = s.data := by
  have hnum : numLit (trimWS s.data) = true := h
  cases hd : s.data with
  | nil => rfl
  | cons c t =>
    show c.toUpper :: t = c :: t
    suffices hup : c.toUpper = c by rw [hup]
    apply toUpper_eq_of_not_lower
    by_cases hws : isWS c = true
    · exact isWS_not_lower c hws
    · have hdrop : s.data.dropWhile isWS = c :: t := by
        rw [hd]
        exact List.dropWhile_cons_of_neg (by simp [hws])
      obtain ⟨ws2, hdec, _⟩ := trimWS_decomp s.data
      rw [hdrop] at hdec
      have hne : trimWS s.data ≠ [] := by
        intro he
        rw [he] at hnum
        exact absurd hnum (by decide)
      cases htr : trimWS s.data with
      | nil => exact absurd htr hne
      | cons c0 t0 =>
        rw [htr] at hdec
        have hc0 : c0 = c := (List.cons_eq_cons.mp hdec).1.symm
        rw [htr] at hnum
        have := numLit_head_not_lower _ hnum c0 t0 rfl
        rw [hc0] at this
        exact this

theorem prettifyOne_numeric (s : String) (h : isNumeric s = true)
    (hk : hasTriple '-' s.data = false) (hc : hasCamelPair s.data = false) :
    prettifyOne s = s := by
  have hund : s.data.contains '_' = false := isNumeric_no_underscore s h
  have hcap : capitalizeFirst s.data = s.data := isNumeric_capitalize s h
  rw [prettifyOne_expand]
  by_cases hlen : 3 ≤ s.length
  · rw [if_pos hlen, hund, if_neg (by simp)]
    cases hcon : s.data.contains '-' with
    | true =>
      rw [if_pos rfl, replaceSep_noMatch '-' s.data hk, hcap]
    | false =>
      rw [if_neg (by simp), camelReplace_noMatch s.data hc, hcap]
  · rw [if_neg hlen]

theorem prettifyStringJS_str (s : String) (sep : JSVal) :
    prettifyStringJS (.str s) sep = .ok (prettifyOne s) := rfl

theorem prettifyOne_head (c : Char) (cs : List Char) (h : 3 ≤ cs.length + 1) :
    ∃ t, prettifyOne (String.mk (c :: cs)) = String.mk (c.toUpper :: t) := by
  rw [prettifyOne_expand]
  have hlen : (String.mk (c :: cs)).length = cs.length + 1 := by
    show (c :: cs).length = cs.length + 1
    simp
  rw [if_pos (by rw [hlen]; exact h)]
  have hdata : (String.mk (c :: cs)).data = c :: cs := rfl
  rw [hdata]
  split
  · obtain ⟨t, ht⟩ := replaceSep_head '_' c cs
    exact ⟨t, by rw [ht]; rfl⟩
  · split
    · obtain ⟨t, ht⟩ := replaceSep_head '-' c cs
      exact ⟨t, by rw [ht]; rfl⟩
    · obtain ⟨t, ht⟩ := camelReplace_head c cs
      exact ⟨t, by rw [ht]; rfl⟩

/-! ### unique: idempotence in both modes -/

theorem uniqueSetAux_idem : ∀ (l : List JSVal) (seen : List JSVal),
    uniqueSetAux seen (uniqueSetAux seen l) = uniqueSetAux seen l
  | [], _ => rfl
  | x :: xs, seen => by
    show uniqueSetAux seen
        (if seen.any (fun y => sameValueZero y x) then uniqueSetAux seen xs
         else x :: uniqueSetAux (x :: seen) xs)
      = (if seen.any (fun y => sameValueZero y x) then uniqueSetAux seen xs
         else x :: uniqueSetAux (x :: seen) xs)
    cases hmem : seen.any (fun y => sameValueZero y x) with
    | true => exact uniqueSetAux_idem xs seen
    | false =>
      show (if seen.any (fun y => sameValueZero y x) then
            uniqueSetAux seen (uniqueSetAux (x :: seen) xs)
          else x :: uniqueSetAux (x :: seen) (uniqueSetAux (x :: seen) xs))
        = x :: uniqueSetAux (x :: seen) xs
      rw [hmem, if_neg (by simp), uniqueSetAux_idem xs (x :: seen)]

theorem uniqueSetAux_sublist : ∀ (l : List JSVal) (seen : List JSVal),
    (uniqueSetAux seen l).Sublist l
  | [], _ => List.Sublist.refl []
  | x :: xs, seen => by
    show (if seen.any (fun y => sameValueZero y x) then uniqueSetAux seen xs
          else x :: uniqueSetAux (x :: seen) xs).Sublist (x :: xs)
    split
    · exact List.Sublist.cons x (uniqueSetAux_sublist xs seen)
    · exact List.Sublist.cons₂ x (uniqueSetAux_sublist xs (x :: seen))

theorem filterIdxFrom_sublist (p : JSVal → Nat → Bool) :
    ∀ (n : Nat) (l : List JSVal), (filterIdxFrom p n l).Sublist l
  | _, [] => List.Sublist.refl []
  | n, x :: xs => by
    show (if p x n then x :: filterIdxFrom p (n + 1) xs
          else filterIdxFrom p (n + 1) xs).Sublist (x :: xs)
    split
    · exact List.Sublist.cons₂ x (filterIdxFrom_sublist p (n + 1) xs)
    · exact List.Sublist.cons x (filterIdxFrom_sublist p (n + 1) xs)

theorem filterIdxFrom_all (p : JSVal → Nat → Bool) :
    ∀ (n : Nat) (l : List JSVal),
      (∀ j x, l[j]? = some x → p x (n + j) = true) → filterIdxFrom p n l = l
  | _, [], _ => rfl
  | n, x :: xs, h => by
    show (if p x n then x :: filterIdxFrom p (n + 1) xs
          else filterIdxFrom p (n + 1) xs) = x :: xs
    have h0 : p x n = true := by
      have := h 0 x (by simp)
      simpa using this
    rw [if_pos h0]
    congr 1
    apply filterIdxFrom_all p (n + 1) xs
    intro j y hy
    have := h (j + 1) y (by simpa using hy)
    have harith : n + (j + 1) = n + 1 + j := by omega
    rw [harith] at this
    exact this

theorem filterIdxFrom_mem_idx (p : JSVal → Nat → Bool) :
    ∀ (n : Nat) (l : List JSVal) (j : Nat) (x : JSVal),
      (filterIdxFrom p n l)[j]? = some x →
      ∃ i, l[i]? = some x ∧ p x (n + i) = true
  | _, [], j, x, h => by simp [filterIdxFrom] at h
  | n, y :: ys, j, x, h => by
    rw [show filterIdxFrom p n (y :: ys)
        = (if p y n then y :: filterIdxFrom p (n + 1) ys
           else filterIdxFrom p (n + 1) ys) from rfl] at h
    by_cases hp : p y n = true
    · rw [if_pos hp] at h
      cases j with
      | zero =>
        have hx : y = x := by simpa using h
        subst hx
        exact ⟨0, by simp, by simpa using hp⟩
      | succ j' =>
        have h2 : (filterIdxFrom p (n + 1) ys)[j']? = some x := by simpa using h
        obtain ⟨i, hi, hpi⟩ := filterIdxFrom_mem_idx p (n + 1) ys j' x h2
        refine ⟨i + 1, by simpa using hi, ?_⟩
        have harith : n + (i + 1) = n + 1 + i := by omega
        rw [harith]
        exact hpi
    · rw [if_neg hp] at h
      obtain ⟨i, hi, hpi⟩ := filterIdxFrom_mem_idx p (n + 1) ys j x h
      refine ⟨i + 1, by simpa using hi, ?_⟩
      have harith : n + (i + 1) = n + 1 + i := by omega
      rw [harith]
      exact hpi

theorem filterIdxFrom_pair_idx (p : JSVal → Nat → Bool) :
    ∀ (n : Nat) (l : List JSVal) (j1 j2 : Nat) (x1 x2 : JSVal), j1 < j2 →
      (filterIdxFrom p n l)[j1]? = some x1 →
      (filterIdxFrom p n l)[j2]? = some x2 →
      ∃ i1 i2, i1 < i2 ∧ l[i1]? = some x1 ∧ l[i2]? = some x2
        ∧ p x1 (n + i1) = true ∧ p x2 (n + i2) = true
  | _, [], _, _, _, _, _, h1, _ => by simp [filterIdxFrom] at h1
  | n, y :: ys, j1, j2, x1, x2, hlt, h1, h2 => by
    rw [show filterIdxFrom p n (y :: ys)
        = (if p y n then y :: filterIdxFrom p (n + 1) ys
           else filterIdxFrom p (n + 1) ys) from rfl] at h1 h2
    by_cases hp : p y n = true
    · rw [if_pos hp] at h1 h2
      cases j1 with
      | zero =>
        have hx : y = x1 := by simpa using h1
        obtain ⟨j2', rfl⟩ : ∃ j2', j2 = j2' + 1 := ⟨j2 - 1, by omega⟩
        have h2' : (filterIdxFrom p (n + 1) ys)[j2']? = some x2 := by simpa using h2
        obtain ⟨i2, hi2, hpi2⟩ := filterIdxFrom_mem_idx p (n + 1) ys j2' x2 h2'
        refine ⟨0, i2 + 1, by omega, by simp [hx.symm], by simpa using hi2, ?_, ?_⟩
        · simpa [hx.symm, Nat.add_zero] using hp
        · have harith : n + (i2 + 1) = n + 1 + i2 := by omega
          rw [harith]
          exact hpi2
      | succ j1' =>
        obtain ⟨j2', rfl⟩ : ∃ j2', j2 = j2' + 1 := ⟨j2 - 1, by omega⟩
        have h1' : (filterIdxFrom p (n + 1) ys)[j1']? = some x1 := by simpa using h1
        have h2' : (filterIdxFrom p (n + 1) ys)[j2']? = some x2 := by simpa using h2
        obtain ⟨i1, i2, hii, hi1, hi2, hp1, hp2⟩ :=
          filterIdxFrom_pair_idx p (n + 1) ys j1' j2' x1 x2 (by omega) h1' h2'
        refine ⟨i1 + 1, i2 + 1, by omega, by simpa using hi1, by simpa using hi2, ?_, ?_⟩
        · have harith : n + (i1 + 1) = n + 1 + i1 := by omega
          rw [harith]; exact hp1
        · have harith : n + (i2 + 1) = n + 1 + i2 := by omega
          rw [harith]; exact hp2
    · rw [if_neg hp] at h1 h2
      obtain ⟨i1, i2, hii, hi1, hi2, hp1, hp2⟩ :=
        filterIdxFrom_pair_idx p (n + 1) ys j1 j2 x1 x2 hlt h1 h2
      refine ⟨i1 + 1, i2 + 1, by omega, by simpa using hi1, by simpa using hi2, ?_, ?_⟩
      · have harith : n + (i1 + 1) = n + 1 + i1 := by omega
        rw [harith]; exact hp1
      · have harith : n + (i2 + 1) = n + 1 + i2 := by omega
        rw [harith]; exact hp2

theorem uniqueEquals_self_eq (l : List JSVal) (j : Nat) (x : JSVal)
    (h : (uniqueEquals l)[j]? = some x) : jsEquals x x = true := by
  obtain ⟨i, hi, hpi⟩ := filterIdxFrom_mem_idx _ 0 l j x h
  have hfind : List.findIdx? (fun s2 => jsEquals x s2) l = some i := by
    simpa using hpi
  obtain ⟨hlen, hsat, _⟩ := List.findIdx?_eq_some_iff_getElem.mp hfind
  obtain ⟨_, hval⟩ := List.getElem?_eq_some_iff.mp hi
  rw [hval] at hsat
  exact hsat

theorem uniqueEquals_earlier_false (l : List JSVal) (i j : Nat) (x1 x2 : JSVal)
    (hij : i < j)
    (h1 : (uniqueEquals l)[i]? = some x1) (h2 : (uniqueEquals l)[j]? = some x2) :
    jsEquals x2 x1 = false := by
  obtain ⟨i1, i2, hii, hi1, hi2, hp1, hp2⟩ :=
    filterIdxFrom_pair_idx _ 0 l i j x1 x2 hij h1 h2
  have hfind2 : List.findIdx? (fun s2 => jsEquals x2 s2) l = some i2 := by
    simpa using hp2
  obtain ⟨hlen2, _, hbefore⟩ := List.findIdx?_eq_some_iff_getElem.mp hfind2
  obtain ⟨hlt1, hval1⟩ := List.getElem?_eq_some_iff.mp hi1
  have := hbefore i1 hii
  rw [hval1] at this
  simpa using this

theorem uniqueEquals_idem (l : List JSVal) :
    uniqueEquals (uniqueEquals l) = uniqueEquals l := by
  show filterIdxFrom
      (fun s1 pos => List.findIdx? (fun s2 => jsEquals s1 s2) (uniqueEquals l) == some pos)
      0 (uniqueEquals l) = uniqueEquals l
  apply filterIdxFrom_all
  intro j x hx
  have hfind : List.findIdx? (fun s2 => jsEquals x s2) (uniqueEquals l) = some j := by
    apply List.findIdx?_eq_some_iff_getElem.mpr
    obtain ⟨hjlen, hval⟩ := List.getElem?_eq_some_iff.mp hx
    refine ⟨hjlen, ?_, ?_⟩
    · rw [hval]
      exact uniqueEquals_self_eq l j x hx
    · intro k hk
      have hlt : k < (uniqueEquals l).length := Nat.lt_trans hk hjlen
      have hk2 := List.getElem?_eq_getElem hlt
      have := uniqueEquals_earlier_false l k j _ x hk hk2 hx
      simp [this]
  rw [Nat.zero_add, hfind]
  simp

/-! ### unique: agreement with the keep-first formulation -/

theorem svz_trans (a b c : JSVal) (h1 : sameValueZero a b = true)
    (h2 : sameValueZero b c = true) : sameValueZero a c = true := by
  cases a <;> cases b <;> cases c <;> simp_all [sameValueZero]

theorem uniqueSet_eq_spec_aux :
    ∀ (l seen prev : List JSVal),
      (∀ z, seen.any (fun y => sameValueZero y z)
        = prev.any (fun y => sameValueZero y z)) →
      uniqueSetAux seen l = specKeepFirstAux sameValueZero prev l
  | [], _, _, _ => rfl
  | x :: xs, seen, prev, hinv => by
    show (if seen.any (fun y => sameValueZero y x) then uniqueSetAux seen xs
          else x :: uniqueSetAux (x :: seen) xs)
      = (if prev.any (fun y => sameValueZero y x) then
            specKeepFirstAux sameValueZero (prev ++ [x]) xs
         else x :: specKeepFirstAux sameValueZero (prev ++ [x]) xs)
    rw [← hinv x]
    cases hc : seen.any (fun y => sameValueZero y x) with
    | true =>
      rw [if_pos rfl, if_pos rfl]
      apply uniqueSet_eq_spec_aux xs seen (prev ++ [x])
      intro z
      rw [List.any_append, ← hinv z]
      cases hz : sameValueZero x z with
      | false => simp [hz]
      | true =>
        obtain ⟨y, hy, hyx⟩ := List.any_eq_true.mp hc
        have hyz : sameValueZero y z = true := svz_trans y x z hyx hz
        have hseen : seen.any (fun y => sameValueZero y z) = true :=
          List.any_eq_true.mpr ⟨y, hy, hyz⟩
        simp [hseen]
    | false =>
      rw [if_neg (by simp), if_neg (by simp)]
      refine congrArg (List.cons x) ?_
      apply uniqueSet_eq_spec_aux xs (x :: seen) (prev ++ [x])
      intro z
      rw [List.any_cons, List.any_append, ← hinv z]
      cases hz : sameValueZero x z <;> simp [hz, Bool.or_comm]

theorem uniqueSet_eq_spec (l : List JSVal) :
    uniqueSetAux [] l = specKeepFirstAux sameValueZero [] l :=
  uniqueSet_eq_spec_aux l [] [] (fun _ => rfl)

theorem WFbList_mem : ∀ (l : List JSVal), WFbList l = true → ∀ x ∈ l, WFb x = true
  | a :: t, h, x, hx => by
    have h1 : (WFb a && WFbList t) = true := h
    have h2 : WFb a = true ∧ WFbList t = true := by simpa using h1
    rcases List.mem_cons.mp hx with h3 | h3
    · rw [h3]; exact h2.1
    · exact WFbList_mem t h2.2 x h3
  | [], _, x, hx => absurd hx (List.not_mem_nil x)

theorem WFbFields_parts (k : String) (v : JSVal) (rest : List (String × JSVal))
    (h : WFbFields ((k, v) :: rest) = true) :
    (rest.any (fun kv => kv.1 == k)) = false
      ∧ WFb v = true ∧ WFbFields rest = true := by
  simpa [WFbFields, and_assoc] using h

theorem WFbFields_lookup : ∀ (f : List (String × JSVal)), WFbFields f = true →
    ∀ k v, (k, v) ∈ f → lookupField k f = some v
  | (k0, v0) :: rest, h, k, v, hm => by
    obtain ⟨hdup, _, hrest⟩ := WFbFields_parts k0 v0 rest h
    rcases List.mem_cons.mp hm with h3 | h3
    · injection h3 with hk hv
      subst hk
      subst hv
      show (if k = k then some v else lookupField k rest) = some v
      rw [if_pos rfl]
    · have hk : k ≠ k0 := by
        intro he
        have hc : rest.any (fun kv => kv.1 == k0) = true :=
          List.any_eq_true.mpr ⟨(k, v), h3, by simp [he]⟩
        rw [hc] at hdup
        cases hdup
      show (if k0 = k then some v0 else lookupField k rest) = some v
      rw [if_neg (fun he => hk he.symm)]
      exact WFbFields_lookup rest hrest k v h3
  | [], _, _, _, hm => absurd hm (List.not_mem_nil _)

mutual

theorem jsEqualsRefl : ∀ (v : JSVal), WFb v = true → jsEquals v v = true
  | .null, _ => rfl
  | .bool b, _ => by simp [jsEquals]
  | .num n, _ => by simp [jsEquals]
  | .str s, _ => by simp [jsEquals]
  | .arr r l, h => by
    have hwf : WFbList l = true := h
    show (l.length == l.length && jsEqualsList l l) = true
    rw [jsEqualsListRefl l hwf]
    simp
  | .obj r f, h => by
    have hwf : WFbFields f = true := h
    show (f.length == f.length && jsEqualsFields f f) = true
    rw [jsEqualsFieldsSub f f hwf (WFbFields_lookup f hwf)]
    simp
termination_by structural v _ => v

theorem jsEqualsListRefl : ∀ (l : List JSVal), WFbList l = true →
    jsEqualsList l l = true
  | [], _ => rfl
  | x :: xs, h => by
    have h2 : WFb x = true ∧ WFbList xs = true := by
      simpa [WFbList] using h
    show (jsEquals x x && jsEqualsList xs xs) = true
    rw [jsEqualsRefl x h2.1, jsEqualsListRefl xs h2.2]
    rfl
termination_by structural l _ => l

theorem jsEqualsFieldsSub : ∀ (af bf : List (String × JSVal)),
    WFbFields af = true →
    (∀ k v, (k, v) ∈ af → lookupField k bf = some v) →
    jsEqualsFields bf af = true
  | [], _, _, _ => rfl
  | (k, v) :: af', bf, h, hsub => by
    obtain ⟨_, hv, hrest⟩ := WFbFields_parts k v af' h
    have hl : lookupField k bf = some v := hsub k v (List.mem_cons_self _ _)
    show ((match lookupField k bf with
           | some w => jsEquals v w
           | none => false) && jsEqualsFields bf af') = true
    rw [hl]
    show (jsEquals v v && jsEqualsFields bf af') = true
    rw [jsEqualsRefl v hv,
      jsEqualsFieldsSub af' bf hrest
        (fun k2 v2 hm => hsub k2 v2 (List.mem_cons_of_mem _ hm))]
    rfl
termination_by structural af _ _ _ => af

end

theorem uniqueEquals_eq_spec_aux (l : List JSVal) (hwf : WFbList l = true) :
    ∀ (rest pre : List JSVal), l = pre ++ rest →
      filterIdxFrom
          (fun s1 pos => List.findIdx? (fun s2 => jsEquals s1 s2) l == some pos)
          pre.length rest
        = specKeepFirstAux (fun y x => jsEquals x y) pre rest
  | [], _, _ => rfl
  | x :: xs, pre, hl => by
    have hxmem : x ∈ l := by
      rw [hl]; exact List.mem_append_right pre (List.mem_cons_self x xs)
    have hxx : jsEquals x x = true := jsEqualsRefl x (WFbList_mem l hwf x hxmem)
    have hcond : (List.findIdx? (fun s2 => jsEquals x s2) l == some pre.length)
        = !(pre.any (fun y => jsEquals x y)) := by
      cases hany : pre.any (fun y => jsEquals x y) with
      | false =>
        have hpre : List.findIdx? (fun s2 => jsEquals x s2) pre = none := by
          rw [List.findIdx?_eq_none_iff]
          intro y hy
          show jsEquals x y = false
          cases hxy : jsEquals x y with
          | false => rfl
          | true =>
            exfalso
            have hc : pre.any (fun y => jsEquals x y) = true :=
              List.any_eq_true.mpr ⟨y, hy, hxy⟩
            rw [hc] at hany
            cases hany
        have hhead : List.findIdx? (fun s2 => jsEquals x s2) (x :: xs) = some 0 :=
          List.findIdx?_eq_some_iff_getElem.mpr
            ⟨by simp, by simpa using hxx, fun j hj => by omega⟩
        rw [hl, List.findIdx?_append, hpre, hhead]
        simp
      | true =>
        have hsome : ∃ i, List.findIdx? (fun s2 => jsEquals x s2) pre = some i
            ∧ i < pre.length := by
          cases hf : List.findIdx? (fun s2 => jsEquals x s2) pre with
          | none =>
            exfalso
            obtain ⟨y, hy, hxy⟩ := List.any_eq_true.mp hany
            have h0 : jsEquals x y = false := List.findIdx?_eq_none_iff.mp hf y hy
            rw [hxy] at h0
            cases h0
          | some i =>
            obtain ⟨hlen, _, _⟩ := List.findIdx?_eq_some_iff_getElem.mp hf
            exact ⟨i, rfl, hlen⟩
        obtain ⟨i, hf, hlt⟩ := hsome
        rw [hl, List.findIdx?_append, hf]
        have hor : (some i).or
            ((List.findIdx? (fun s2 => jsEquals x s2) (x :: xs)).map
              (fun j => j + pre.length)) = some i := rfl
        rw [hor]
        exact beq_eq_false_iff_ne.mpr
          (fun he => Nat.ne_of_lt hlt (Option.some.inj he))
    have hih := uniqueEquals_eq_spec_aux l hwf xs (pre ++ [x])
      (by rw [hl, List.append_assoc]; rfl)
    rw [show (pre ++ [x]).length = pre.length + 1 by simp] at hih
    show (if List.findIdx? (fun s2 => jsEquals x s2) l == some pre.length then
            x :: filterIdxFrom
              (fun s1 pos => List.findIdx? (fun s2 => jsEquals s1 s2) l == some pos)
              (pre.length + 1) xs
          else filterIdxFrom
              (fun s1 pos => List.findIdx? (fun s2 => jsEquals s1 s2) l == some pos)
              (pre.length + 1) xs)
      = (if pre.any (fun y => jsEquals x y) then
            specKeepFirstAux (fun y x => jsEquals x y) (pre ++ [x]) xs
         else x :: specKeepFirstAux (fun y x => jsEquals x y) (pre ++ [x]) xs)
    rw [hcond]
    cases hany : pre.any (fun y => jsEquals x y) with
    | true =>
      simp only [Bool.not_true]
      rw [if_pos trivial]
      exact hih
    | false =>
      simp only [Bool.not_false]
      rw [if_pos trivial, if_neg (by simp)]
      exact congrArg (List.cons x) hih

theorem uniqueEquals_eq_spec (l : List JSVal) (hwf : WFbList l = true) :
    uniqueEquals l = specKeepFirstAux (fun y x => jsEquals x y) [] l :=
  uniqueEquals_eq_spec_aux l hwf l [] rfl

/-! ### deepClone: structural equality and fresh storage -/

theorem lookupField_head (k : String) (v : JSVal) (rest : List (String × JSVal)) :
    lookupField k ((k, v) :: rest) = some v := by
  show (if k = k then some v else lookupField k rest) = some v
  rw [if_pos rfl]

theorem jsEqualsFields_skip_head (k : String) (v : JSVal)
    (bf : List (String × JSVal)) :
    ∀ (af : List (String × JSVal)), (∀ kv ∈ af, kv.1 ≠ k) →
      jsEqualsFields ((k, v) :: bf) af = jsEqualsFields bf af
  | [], _ => rfl
  | (k2, v2) :: af', h => by
    have hk2 : k2 ≠ k := h (k2, v2) (List.mem_cons_self _ _)
    show ((match lookupField k2 ((k, v) :: bf) with
           | some w => jsEquals v2 w
           | none => false) && jsEqualsFields ((k, v) :: bf) af')
      = ((match lookupField k2 bf with
           | some w => jsEquals v2 w
           | none => false) && jsEqualsFields bf af')
    have hlook : lookupField k2 ((k, v) :: bf) = lookupField k2 bf := by
      show (if k = k2 then some v else lookupField k2 bf) = lookupField k2 bf
      rw [if_neg (fun he => hk2 he.symm)]
    rw [hlook,
      jsEqualsFields_skip_head k v bf af' (fun kv hkv => h kv (List.mem_cons_of_mem _ hkv))]

mutual

theorem cloneEq : ∀ (v : JSVal) (n : Nat), WFb v = true →
    jsEquals (deepCloneN v n).1 v = true
  | .null, _, _ => rfl
  | .bool b, _, _ => by simp [deepCloneN, jsEquals]
  | .num m, _, _ => by simp [deepCloneN, jsEquals]
  | .str s, _, _ => by simp [deepCloneN, jsEquals]
  | .arr r l, n, h => by
    have hwf : WFbList l = true := h
    obtain ⟨hlen, heq⟩ := cloneEqList l (n + 1) hwf
    show ((cloneList l (n + 1)).1.length == l.length
        && jsEqualsList (cloneList l (n + 1)).1 l) = true
    rw [hlen, heq]
    simp
  | .obj r f, n, h => by
    have hwf : WFbFields f = true := h
    obtain ⟨hkeys, heq⟩ := cloneEqFields f (n + 1) hwf
    show ((cloneFields f (n + 1)).1.length == f.length
        && jsEqualsFields f (cloneFields f (n + 1)).1) = true
    have hlen : (cloneFields f (n + 1)).1.length = f.length := by
      have := congrArg List.length hkeys
      simpa using this
    rw [hlen, heq]
    simp
termination_by structural v _ _ => v

theorem cloneEqList : ∀ (l : List JSVal) (n : Nat), WFbList l = true →
    ((cloneList l n).1.length = l.length
      ∧ jsEqualsList (cloneList l n).1 l = true)
  | [], _, _ => ⟨rfl, rfl⟩
  | x :: xs, n, h => by
    have h2 : WFb x = true ∧ WFbList xs = true := by
      simpa [WFbList] using h
    obtain ⟨hlen, heq⟩ := cloneEqList xs (deepCloneN x n).2 h2.2
    constructor
    · show ((deepCloneN x n).1 :: (cloneList xs (deepCloneN x n).2).1).length = (x :: xs).length
      simp [hlen]
    · show (jsEquals (deepCloneN x n).1 x
          && jsEqualsList (cloneList xs (deepCloneN x n).2).1 xs) = true
      rw [cloneEq x n h2.1, heq]
      rfl
termination_by structural l _ _ => l

theorem cloneEqFields : ∀ (f : List (String × JSVal)) (n : Nat), WFbFields f = true →
    ((cloneFields f n).1.map Prod.fst = f.map Prod.fst
      ∧ jsEqualsFields f (cloneFields f n).1 = true)
  | [], _, _ => ⟨rfl, rfl⟩
  | (k, v) :: rest, n, h => by
    have h2 : (rest.any (fun kv => kv.1 == k)) = false
        ∧ WFb v = true ∧ WFbFields rest = true := by
      simpa [WFbFields, and_assoc] using h
    obtain ⟨hkeys, heq⟩ := cloneEqFields rest (deepCloneN v n).2 h2.2.2
    have hrestkeys : ∀ kv ∈ (cloneFields rest (deepCloneN v n).2).1, kv.1 ≠ k := by
      intro kv hkv
      have hmem : kv.1 ∈ rest.map Prod.fst := by
        rw [← hkeys]
        exact List.mem_map_of_mem Prod.fst hkv
      obtain ⟨kv0, hkv0, hfst⟩ := List.mem_map.mp hmem
      intro hcon
      have : rest.any (fun kv => kv.1 == k) = true := by
        apply List.any_eq_true.mpr
        exact ⟨kv0, hkv0, by simp [hfst, hcon]⟩
      rw [this] at h2
      exact absurd h2.1 (by simp)
    constructor
    · show k :: (cloneFields rest (deepCloneN v n).2).1.map Prod.fst
        = k :: rest.map Prod.fst
      rw [hkeys]
    · show ((match lookupField k ((k, v) :: rest) with
            | some w => jsEquals (deepCloneN v n).1 w
            | none => false)
          && jsEqualsFields ((k, v) :: rest) (cloneFields rest (deepCloneN v n).2).1) = true
      rw [lookupField_head, jsEqualsFields_skip_head k v rest _ hrestkeys]
      show (jsEquals (deepCloneN v n).1 v
          && jsEqualsFields rest (cloneFields rest (deepCloneN v n).2).1) = true
      rw [cloneEq v n h2.2.1, heq]
      rfl
termination_by structural f _ _ => f

end

mutual

theorem cloneRefs : ∀ (v : JSVal) (n : Nat),
    n ≤ (deepCloneN v n).2 ∧ ∀ r ∈ refsOf (deepCloneN v n).1, n ≤ r
  | .null, _ => ⟨Nat.le_refl _, by intro r hr; cases hr⟩
  | .bool _, _ => ⟨Nat.le_refl _, by intro r hr; cases hr⟩
  | .num _, _ => ⟨Nat.le_refl _, by intro r hr; cases hr⟩
  | .str _, _ => ⟨Nat.le_refl _, by intro r hr; cases hr⟩
  | .arr rf l, n => by
    obtain ⟨hc, hrefs⟩ := cloneRefsList l (n + 1)
    constructor
    · show n ≤ (cloneList l (n + 1)).2
      omega
    · intro r hr
      have : r ∈ n :: refsOfList (cloneList l (n + 1)).1 := hr
      rcases List.mem_cons.mp this with h1 | h1
      · omega
      · have := hrefs r h1
        omega
  | .obj rf f, n => by
    obtain ⟨hc, hrefs⟩ := cloneRefsFields f (n + 1)
    constructor
    · show n ≤ (cloneFields f (n + 1)).2
      omega
    · intro r hr
      have : r ∈ n :: refsOfFields (cloneFields f (n + 1)).1 := hr
      rcases List.mem_cons.mp this with h1 | h1
      · omega
      · have := hrefs r h1
        omega
termination_by structural v _ => v

theorem cloneRefsList : ∀ (l : List JSVal) (n : Nat),
    n ≤ (cloneList l n).2 ∧ ∀ r ∈ refsOfList (cloneList l n).1, n ≤ r
  | [], _ => ⟨Nat.le_refl _, by intro r hr; cases hr⟩
  | x :: xs, n => by
    obtain ⟨hc1, hr1⟩ := cloneRefs x n
    obtain ⟨hc2, hr2⟩ := cloneRefsList xs (deepCloneN x n).2
    constructor
    · show n ≤ (cloneList xs (deepCloneN x n).2).2
      omega
    · intro r hr
      have : r ∈ refsOf (deepCloneN x n).1
          ++ refsOfList (cloneList xs (deepCloneN x n).2).1 := hr
      rcases List.mem_append.mp this with h1 | h1
      · exact hr1 r h1
      · have := hr2 r h1
        omega
termination_by structural l _ => l

theorem cloneRefsFields : ∀ (f : List (String × JSVal)) (n : Nat),
    n ≤ (cloneFields f n).2 ∧ ∀ r ∈ refsOfFields (cloneFields f n).1, n ≤ r
  | [], _ => ⟨Nat.le_refl _, by intro r hr; cases hr⟩
  | (k, v) :: rest, n => by
    obtain ⟨hc1, hr1⟩ := cloneRefs v n
    obtain ⟨hc2, hr2⟩ := cloneRefsFields rest (deepCloneN v n).2
    constructor
    · show n ≤ (cloneFields rest (deepCloneN v n).2).2
      omega
    · intro r hr
      have : r ∈ refsOf (deepCloneN v n).1
          ++ refsOfFields (cloneFields rest (deepCloneN v n).2).1 := hr
      rcases List.mem_append.mp this with h1 | h1
      · exact hr1 r h1
      · have := hr2 r h1
        omega
termination_by structural f _ => f

end

/-! ### friendlyLinks: matching links are dropped -/

theorem processOne_skip (l : JSVal) (ig : List String)
    (h : matchesIgnore l ig = true) : processOne l ig = .ok none := by
  unfold processOne
  rw [h]
  rfl

theorem processLinks_filter : ∀ (links : List JSVal) (ig : List String),
    processLinks (links.filter (fun l => !(matchesIgnore l ig))) ig
      = processLinks links ig
  | [], _ => rfl
  | l :: rest, ig => by
    cases hm : matchesIgnore l ig with
    | true =>
      rw [List.filter_cons_of_neg (by simp [hm])]
      rw [processLinks_filter rest ig]
      show processLinks rest ig
        = match processOne l ig, processLinks rest ig with
          | .error e, _ => .error e
          | .ok _, .error e => .error e
          | .ok none, .ok rs => .ok rs
          | .ok (some v), .ok rs => .ok (v :: rs)
      rw [processOne_skip l ig hm]
      cases processLinks rest ig <;> rfl
    | false =>
      rw [List.filter_cons_of_pos (by simp [hm])]
      show (match processOne l ig,
          processLinks (rest.filter (fun l => !(matchesIgnore l ig))) ig with
          | .error e, _ => .error e
          | .ok _, .error e => .error e
          | .ok none, .ok rs => .ok rs
          | .ok (some v), .ok rs => .ok (v :: rs))
        = processLinks (l :: rest) ig
      rw [processLinks_filter rest ig]
      rfl

/-! ### replacePlaceholders: one substitution site -/

/-- First-occurrence substitution in full generality: the first shown
`{k}` is replaced by the `GetSubstitution`-expanded replacement (with the
preceding text as `before` and the following text as `after`), and `post`
— further occurrences included — is returned verbatim. -/
theorem replacePlaceholders_first (pre post k rep : String)
    (h : containsSub (placeholderOf k).data
        (pre.data ++ (placeholderOf k).data.dropLast) = false) :
    replacePlaceholders (.str (pre ++ placeholderOf k ++ post))
        (.obj 0 [(k, .str rep)])
      = .str (pre ++ String.mk
          (expandRep (placeholderOf k).data pre.data post.data rep.data) ++ post) := by
  show JSVal.str (replaceFirst (pre ++ placeholderOf k ++ post) (placeholderOf k) rep)
    = _
  congr 1
  show String.mk (replaceFirstL (placeholderOf k).data rep.data
      (pre ++ placeholderOf k ++ post).data)
    = pre ++ String.mk (expandRep (placeholderOf k).data pre.data post.data rep.data)
        ++ post
  have hdata : (pre ++ placeholderOf k ++ post).data
      = pre.data ++ ((placeholderOf k).data ++ post.data) := by
    show (pre.data ++ (placeholderOf k).data) ++ post.data
      = pre.data ++ ((placeholderOf k).data ++ post.data)
    rw [List.append_assoc]
  rw [hdata, replaceFirstL_append _ _ _ _ h]
  apply String.ext
  show pre.data ++ (expandRep (placeholderOf k).data pre.data post.data rep.data
      ++ post.data)
    = (pre.data ++ (expandRep (placeholderOf k).data pre.data post.data rep.data))
      ++ post.data
  rw [List.append_assoc]

/-- The common case of a `$`-free replacement: inserted verbatim. -/
theorem replacePlaceholders_single (pre post k rep : String)
    (h : containsSub (placeholderOf k).data
        (pre.data ++ (placeholderOf k).data.dropLast) = false)
    (hrep : rep.data.contains '$' = false) :
    replacePlaceholders (.str (pre ++ placeholderOf k ++ post))
        (.obj 0 [(k, .str rep)])
      = .str (pre ++ rep ++ post) := by
  rw [replacePlaceholders_first pre post k rep h,
    expandRep_no_dollar _ _ _ rep.data hrep]

/-! ### Head capitalization of prettified tokens -/

theorem prettifyOne_headChar (c : Char) (cs : List Char) (h : 3 ≤ cs.length + 1) :
    (prettifyOne (String.mk (c :: cs))).data.head? = some c.toUpper := by
  obtain ⟨t, ht⟩ := prettifyOne_head c cs h
  rw [ht]
  rfl

/-! ## Claim theorems -/

/-- C1 (counterexample): the canonical `prettifyString` up-cases the letter
after each inserted space too, so `prettifyString("collection_id")` is
`"Collection Id"`, not `"Collection id"` as claimed. -/
theorem C1_counterexample :
    prettifyStringJS (.str "collection_id") (.str "; ") = .ok "Collection Id"
    ∧ prettifyStringJS (.str "collection_id") (.str "; ") ≠ .ok "Collection id" := by
  decide

/-- C1 (amended): after inserting spaces per the snake/kebab/camel rule the
first character of each token is capitalized, and the character following
each inserted space is up-cased as well: `prettifyString("collection_id")`
is `"Collection Id"`, `prettifyString("spatialExtent")` is
`"Spatial Extent"`, `prettifyString("42")` is `"42"`; in general a
processed token's first character is the up-cased first input character. -/
theorem C1_prettify_capitalization :
    prettifyStringJS (.str "collection_id") (.str "; ") = .ok "Collection Id"
    ∧ prettifyStringJS (.str "spatialExtent") (.str "; ") = .ok "Spatial Extent"
    ∧ prettifyStringJS (.str "42") (.str "; ") = .ok "42"
    ∧ ∀ (c : Char) (cs : List Char), 3 ≤ cs.length + 1 →
        (prettifyOne (String.mk (c :: cs))).data.head? = some c.toUpper := by
  refine ⟨by decide, by decide, by decide, ?_⟩
  intro c cs h
  exact prettifyOne_headChar c cs h

/-- C1 (witness for the amended theorem). -/
theorem C1_witness :
    (prettifyOne (String.mk ('a' :: ['b', 'c']))).data.head? = some 'a'.toUpper :=
  C1_prettify_capitalization.2.2.2 'a' ['b', 'c'] (by decide)

/-- C2 (counterexample): `normalizeUrl` strips only one trailing slash, so
it is not idempotent on a URL ending in two slashes. -/
theorem C2_counterexample :
    normalizeUrlJS (.str "https://api.example.com//") .null
      = .ok "https://api.example.com/"
    ∧ normalizeUrlJS (.str "https://api.example.com/") .null
      = .ok "https://api.example.com"
    ∧ ("https://api.example.com/" : String) ≠ "https://api.example.com" := by
  decide

/-- C2 (amended): the single-argument `normalizeUrl` is idempotent on every
string that does not end in two slashes (it equals one-trailing-slash
stripping), and `normalizeUrl("https://api.example.com/", "/jobs/")` is
`"https://api.example.com/jobs"`. -/
theorem C2_normalizeUrl_idem :
    (∀ u : String, endsTwoSlashes u = false →
      normalizeUrlJS (.str u) .null = .ok (stripTrailingSlash u)
      ∧ stripTrailingSlash (stripTrailingSlash u) = stripTrailingSlash u)
    ∧ normalizeUrlJS (.str "https://api.example.com/") (.str "/jobs/")
      = .ok "https://api.example.com/jobs" := by
  constructor
  · intro u h
    exact ⟨rfl, stripTrailingSlash_idem u h⟩
  · decide

/-- C2 (witness for the amended theorem). -/
theorem C2_witness :
    endsTwoSlashes "https://a/" = false
    ∧ normalizeUrlJS (.str "https://a/") .null = .ok (stripTrailingSlash "https://a/")
    ∧ stripTrailingSlash (stripTrailingSlash "https://a/")
      = stripTrailingSlash "https://a/" :=
  ⟨by decide, (C2_normalizeUrl_idem.1 "https://a/" (by decide)).1,
    (C2_normalizeUrl_idem.1 "https://a/" (by decide)).2⟩

/-- C3 (counterexample): `unique` on a number raises a `TypeError`
(`new Set(42)` — not iterable) instead of returning an empty sequence. -/
theorem C3_counterexample :
    uniqueJS (.num 42) false = .error .typeError
    ∧ uniqueJS (.num 42) false ≠ .ok [] := by
  decide

/-- C3 (amended): `size` yields `0` and `friendlyLinks` yields `[]` on
wrong-shaped input, but `unique` is only safe for `null` (empty result, set
mode); it splits a string into its characters and raises a `TypeError`
on non-iterables (numbers) and, in deep-equality mode, on every non-array. -/
theorem C3_safe_defaults :
    size .null = 0 ∧ size (.num 42) = 0 ∧ size (.str "ab") = 0
    ∧ (∀ (v : JSVal) (srt : Bool) (ig : List String), isArr v = false →
        friendlyLinksJS v srt ig = .ok [])
    ∧ uniqueJS .null false = .ok []
    ∧ uniqueJS (.str "ab") false = .ok [.str "a", .str "b"]
    ∧ uniqueJS (.num 42) false = .error .typeError
    ∧ uniqueJS (.num 42) true = .error .typeError
    ∧ uniqueJS .null true = .error .typeError := by
  refine ⟨rfl, rfl, rfl, ?_, rfl, by decide, rfl, rfl, rfl⟩
  intro v srt ig h
  cases v with
  | arr r l => simp [isArr] at h
  | null => rfl
  | bool b => rfl
  | num n => rfl
  | str s => rfl
  | obj r f => rfl

/-- C3 (witness for the amended theorem). -/
theorem C3_witness :
    isArr (.num 7) = false
    ∧ friendlyLinksJS (.num 7) true ["self"] = .ok [] :=
  ⟨by decide, C3_safe_defaults.2.2.2.1 (.num 7) true ["self"] (by decide)⟩

/-- C4 (counterexample): `normalizeUrl` does not coerce a non-string
`baseUrl`; `normalizeUrl(42)` raises a `TypeError`
(`baseUrl.replace` is not a function), contradicting the claim that it
completes without throwing. -/
theorem C4_counterexample :
    normalizeUrlJS (.num 42) .null = .error .typeError := by
  decide

/-- C4 (amended): `prettifyString` coerces a non-array argument with
`String()` and `compareStringCaseInsensitive` coerces both arguments, so
they complete on non-string input; `normalizeUrl` coerces neither — a
non-string `baseUrl` raises a `TypeError` and a non-string `path` is
ignored. -/
theorem C4_coercion :
    (∀ (v p : JSVal), isStr v = false → normalizeUrlJS v p = .error .typeError)
    ∧ (∀ (v sep : JSVal), isArr v = false →
        prettifyStringJS v sep = prettifyStringJS (.arr 0 [.str (jsToString v)]) sep)
    ∧ (∀ (a b : JSVal), compareStringCI a b
        = compareStringCI (.str (jsToString a)) (.str (jsToString b))) := by
  refine ⟨?_, ?_, ?_⟩
  · intro v p h
    cases v with
    | str s => simp [isStr] at h
    | null => rfl
    | bool b => rfl
    | num n => rfl
    | arr r l => rfl
    | obj r f => rfl
  · intro v sep h
    cases v with
    | arr r l => simp [isArr] at h
    | null => rfl
    | bool b => rfl
    | num n => rfl
    | str s => rfl
    | obj r f => rfl
  · intro a b
    cases a <;> cases b <;> rfl

/-- C4 (witness for the amended theorem). -/
theorem C4_witness :
    isStr (.num 42) = false
    ∧ normalizeUrlJS (.num 42) .null = .error .typeError
    ∧ isArr (.num 42) = false
    ∧ prettifyStringJS (.num 42) (.str "; ")
      = prettifyStringJS (.arr 0 [.str (jsToString (.num 42))]) (.str "; ")
    ∧ compareStringCI (.num 42) .null
      = compareStringCI (.str (jsToString (.num 42))) (.str (jsToString .null)) :=
  ⟨by decide, C4_coercion.1 (.num 42) .null (by decide), by decide,
    C4_coercion.2.1 (.num 42) (.str "; ") (by decide),
    C4_coercion.2.2 (.num 42) .null⟩

/-- C5 (counterexample): the canonical `prettifyString` performs no
`isNumeric` check; the numeric token `"1e-5"` comes back altered to
`"1e 5"` (the kebab-case rule fires on `e-5`), and the numeric hex token
`"0xA"` comes back altered to `"0x A"` (the camel-case rule fires on
`xA`). -/
theorem C5_counterexample :
    isNumeric "1e-5" = true
    ∧ prettifyStringJS (.str "1e-5") (.str "; ") = .ok "1e 5"
    ∧ prettifyStringJS (.str "1e-5") (.str "; ") ≠ .ok "1e-5"
    ∧ isNumeric "0xA" = true
    ∧ hasTriple '-' ("0xA" : String).data = false
    ∧ prettifyStringJS (.str "0xA") (.str "; ") = .ok "0x A" := by
  decide

/-- C5 (amended): a numeric token (per `isNumeric`) is returned unchanged
by the canonical `prettifyString` unless one of its rewrite rules matches
inside the token: a `-` between two alphanumeric characters (a negative
exponent such as `"1e-5"`, altered by the kebab-case rule) or a lowercase
letter followed by an uppercase one (a hex literal such as `"0xA"`,
altered by the camel-case rule). -/
theorem C5_numeric_unchanged :
    ∀ (s : String), isNumeric s = true → hasTriple '-' s.data = false →
      hasCamelPair s.data = false →
      prettifyStringJS (.str s) (.str "; ") = .ok s := by
  intro s h hk hc
  rw [prettifyStringJS_str, prettifyOne_numeric s h hk hc]

/-- C5 (witness for the amended theorem). -/
theorem C5_witness :
    isNumeric "42.5" = true
    ∧ hasTriple '-' ("42.5" : String).data = false
    ∧ hasCamelPair ("42.5" : String).data = false
    ∧ prettifyStringJS (.str "42.5") (.str "; ") = .ok "42.5" :=
  ⟨by decide, by decide, by decide,
    C5_numeric_unchanged "42.5" (by decide) (by decide) (by decide)⟩

/-- C6 (counterexample): the rel comparison lower-cases only the link's
`rel`, not the `ignoreRel` entries, so with `ignoreRel = ["Self"]` a link
with `rel:"self"` is NOT dropped, though it matches case-insensitively. -/
theorem C6_counterexample :
    friendlyLinksJS (.arr 0 [.obj 1 [("href", .str "https://x.org/a"),
        ("rel", .str "self")]]) true ["Self"]
      = .ok [.obj 0 [("href", .str "https://x.org/a"), ("rel", .str "self"),
          ("title", .str "Self")]]
    ∧ friendlyLinksJS (.arr 0 [.obj 1 [("href", .str "https://x.org/a"),
        ("rel", .str "self")]]) true ["Self"] ≠ .ok [] := by
  decide

/-- C6 (amended): a link is dropped iff its lower-cased `rel` appears
verbatim in `ignoreRel` (matching is case-insensitive in the link's `rel`
only); dropped links contribute nothing to the processed list, and the
example with the default `["self"]` produces the single `license` link
with derived title `"License"`. -/
theorem C6_friendlyLinks_drop :
    (∀ (links : List JSVal) (ig : List String),
      processLinks (links.filter (fun l => !(matchesIgnore l ig))) ig
        = processLinks links ig)
    ∧ friendlyLinksJS (.arr 5 [.obj 1 [("href", .str "https://x.org/a"),
          ("rel", .str "self")],
        .obj 2 [("href", .str "https://x.org/b"), ("rel", .str "license")]])
        true ["self"]
      = .ok [.obj 0 [("href", .str "https://x.org/b"), ("rel", .str "license"),
          ("title", .str "License")]] := by
  refine ⟨?_, by decide⟩
  intro links ig
  exact processLinks_filter links ig

/-- C7 (confirmed): `replacePlaceholders` substitutes, per key, only the
first literal occurrence of `{key}`; repeated placeholders beyond the
first stay; array values join with `"; "`; a non-string message or
non-object variables map comes back unchanged; the replacement string
undergoes `String.prototype.replace` dollar expansion (`$$`, the matched
substring for `$&`, and the match context for the backtick and quote
forms), inserted verbatim when it contains no `$`; and the documented
example evaluates as stated. -/
theorem C7_replacePlaceholders :
    replacePlaceholders (.str "Error in \x7bfield\x7d: \x7bmsg\x7d")
        (.obj 0 [("field", .str "bands"), ("msg", .str "required")])
      = .str "Error in bands: required"
    ∧ (∀ (m v : JSVal), isStr m = false → replacePlaceholders m v = m)
    ∧ (∀ (m v : JSVal), isObject v = false → replacePlaceholders m v = m)
    ∧ (∀ (pre post k rep : String),
        containsSub (placeholderOf k).data
            (pre.data ++ (placeholderOf k).data.dropLast) = false →
        replacePlaceholders (.str (pre ++ placeholderOf k ++ post))
            (.obj 0 [(k, .str rep)])
          = .str (pre ++ String.mk
              (expandRep (placeholderOf k).data pre.data post.data rep.data)
              ++ post))
    ∧ (∀ (pre post k rep : String),
        containsSub (placeholderOf k).data
            (pre.data ++ (placeholderOf k).data.dropLast) = false →
        rep.data.contains '$' = false →
        replacePlaceholders (.str (pre ++ placeholderOf k ++ post))
            (.obj 0 [(k, .str rep)])
          = .str (pre ++ rep ++ post))
    ∧ replacePlaceholders (.str "<\x7ba\x7d>") (.obj 0 [("a", .str "$&")])
      = .str "<\x7ba\x7d>"
    ∧ replacePlaceholders (.str "\x7ba\x7d and \x7ba\x7d")
        (.obj 0 [("a", .str "X")]) = .str "X and \x7ba\x7d"
    ∧ replacePlaceholders (.str "\x7ba\x7d")
        (.obj 0 [("a", .arr 3 [.str "x", .str "y"])]) = .str "x; y" := by
  refine ⟨by decide, ?_, ?_, ?_, ?_, by decide, by decide, by decide⟩
  · intro m v h
    cases m with
    | str s => simp [isStr] at h
    | null => cases v <;> rfl
    | bool b => cases v <;> rfl
    | num n => cases v <;> rfl
    | arr r l => cases v <;> rfl
    | obj r f => cases v <;> rfl
  · intro m v h
    cases v with
    | obj r f => simp [isObject] at h
    | null => cases m <;> rfl
    | bool b => cases m <;> rfl
    | num n => cases m <;> rfl
    | arr r l => cases m <;> rfl
    | str s => cases m <;> rfl
  · intro pre post k rep h
    exact replacePlaceholders_first pre post k rep h
  · intro pre post k rep h hrep
    exact replacePlaceholders_single pre post k rep h hrep

/-- C7 (witness for the hypotheses of the confirmed theorem). -/
theorem C7_witness :
    (isStr (.num 1) = false ∧ replacePlaceholders (.num 1) (.obj 0 []) = .num 1)
    ∧ (isObject (.num 2) = false
        ∧ replacePlaceholders (.str "x") (.num 2) = .str "x")
    ∧ (containsSub (placeholderOf "p").data
          (("a " : String).data ++ (placeholderOf "p").data.dropLast) = false
        ∧ replacePlaceholders (.str ("a " ++ placeholderOf "p" ++ "b"))
            (.obj 0 [("p", .str "$$")])
          = .str ("a " ++ String.mk (expandRep (placeholderOf "p").data
              ("a " : String).data ("b" : String).data ("$$" : String).data)
              ++ "b"))
    ∧ (containsSub (placeholderOf "k").data
          (("go " : String).data ++ (placeholderOf "k").data.dropLast) = false
        ∧ ("Z" : String).data.contains '$' = false
        ∧ replacePlaceholders (.str ("go " ++ placeholderOf "k" ++ "!"))
            (.obj 0 [("k", .str "Z")]) = .str ("go " ++ "Z" ++ "!")) :=
  ⟨⟨by decide, C7_replacePlaceholders.2.1 (.num 1) (.obj 0 []) (by decide)⟩,
    ⟨by decide, C7_replacePlaceholders.2.2.1 (.str "x") (.num 2) (by decide)⟩,
    ⟨by decide, C7_replacePlaceholders.2.2.2.1 "a " "b" "p" "$$" (by decide)⟩,
    ⟨by decide, by decide,
      C7_replacePlaceholders.2.2.2.2.1 "go " "!" "k" "Z" (by decide) (by decide)⟩⟩

/-- C8 (confirmed): for a realizable JSON value `v` whose reference ids
lie below the fresh counter `n`, the deep clone is `equals`-equal to `v`
and shares none of `v`'s mutable storage (its reference ids are all new). -/
theorem C8_deepClone (v : JSVal) (n : Nat) (hwf : WFb v = true)
    (hn : ∀ r ∈ refsOf v, r < n) :
    jsEquals (deepCloneN v n).1 v = true
    ∧ ∀ r ∈ refsOf (deepCloneN v n).1, r ∉ refsOf v := by
  refine ⟨cloneEq v n hwf, ?_⟩
  intro r hr hmem
  have h1 := (cloneRefs v n).2 r hr
  have h2 := hn r hmem
  omega

/-- C8 (witness): the clone of a concrete nested value is `equals`-equal
to it. -/
theorem C8_witness :
    jsEquals (deepCloneN (.obj 0 [("a", .arr 1 [.num 1, .null])]) 2).1
      (.obj 0 [("a", .arr 1 [.num 1, .null])]) = true :=
  (C8_deepClone (.obj 0 [("a", .arr 1 [.num 1, .null])]) 2
    (by decide) (by decide)).1

/-- C9 (confirmed): `unique` is idempotent in both equality modes; its
result is exactly the keep-first filtering of the input — an element is
kept iff no earlier input element is a duplicate of it under the mode's
equality (`SameValueZero` in set mode unconditionally; deep `equals` in
equals mode for well-formed inputs, whose objects have duplicate-free
keys) — which preserves first-occurrence order, a sublist of the input;
on an array the dispatching `unique` returns exactly this result. -/
theorem C9_unique_idem :
    ∀ (l : List JSVal),
      (∀ (b : Bool),
        uniqueArr (uniqueArr l b) b = uniqueArr l b
        ∧ (uniqueArr l b).Sublist l
        ∧ ∀ r, uniqueJS (.arr r l) b = .ok (uniqueArr l b))
      ∧ uniqueArr l false = specKeepFirstAux sameValueZero [] l
      ∧ (WFbList l = true →
          uniqueArr l true = specKeepFirstAux (fun y x => jsEquals x y) [] l) := by
  intro l
  refine ⟨?_, ?_, ?_⟩
  · intro b
    cases b with
    | false =>
      refine ⟨?_, ?_, ?_⟩
      · show uniqueSetAux [] (uniqueSetAux [] l) = uniqueSetAux [] l
        exact uniqueSetAux_idem l []
      · show (uniqueSetAux [] l).Sublist l
        exact uniqueSetAux_sublist l []
      · intro r
        rfl
    | true =>
      refine ⟨?_, ?_, ?_⟩
      · show uniqueEquals (uniqueEquals l) = uniqueEquals l
        exact uniqueEquals_idem l
      · show (filterIdxFrom _ 0 l).Sublist l
        exact filterIdxFrom_sublist _ 0 l
      · intro r
        rfl
  · show uniqueSetAux [] l = specKeepFirstAux sameValueZero [] l
    exact uniqueSet_eq_spec l
  · intro hwf
    show uniqueEquals l = specKeepFirstAux (fun y x => jsEquals x y) [] l
    exact uniqueEquals_eq_spec l hwf

/-- C9 (witness for the well-formedness hypothesis of the equals-mode
keep-first equation). -/
theorem C9_witness :
    WFbList [JSVal.num 1, .num 2, .num 1] = true
    ∧ uniqueArr [JSVal.num 1, .num 2, .num 1] true
      = specKeepFirstAux (fun y x => jsEquals x y) []
          [JSVal.num 1, .num 2, .num 1] :=
  ⟨by decide, (C9_unique_idem [JSVal.num 1, .num 2, .num 1]).2.2 (by decide)⟩

/-- C10 (confirmed): substitution is sequential over the keys on the
already-substituted message, so a replacement value containing the
placeholder of a later key is substituted in turn:
`replacePlaceholders("{a}", {a: "{b}", b: "X"})` is `"X"`, not `"{b}"`. -/
theorem C10_sequential_substitution :
    replacePlaceholders (.str "\x7ba\x7d")
        (.obj 0 [("a", .str "\x7bb\x7d"), ("b", .str "X")]) = .str "X"
    ∧ (JSVal.str "X") ≠ .str "\x7bb\x7d" := by
  decide

end OpenEOUtils
